import Mathlib

/-!
Shallow embedding of the circle-packing / layout engine of the repository
(`streamlit_app.py`): the greedy placement engine `_place_cables`, the
overlap-allowed fallback `_place_cables_allow_overlap`, the multi-seed retry
block of the rendering caller, the nested packer `_pack_circles_in_circle`
and the conductor-layout (shrink-retry) block of `_build_conduit_svg`.

Python floats are idealised as exact rationals.  The library calls
`math.sqrt` / `math.hypot` / `math.cos` / `math.sin` / `math.pi` are modelled
by an explicit bundle of rational functions (`MathFns`), so every definition
stays executable; theorems that need analytic facts about these functions
take them as explicit hypotheses (`SqrtDom`, `SqrtLB`, `TrigBound`).
Items are Python dicts mutated in place; the embedding threads the list of
items (the "store") explicitly, so mutation of the caller's collection is
observable, exactly as in the source.

The standard rational operations of this toolchain are `@[irreducible]`, so
concrete runs of the engine could not be checked by the kernel through them.
The embedding therefore uses kernel-computable clones `qadd`, `qsub`,
`qmul`, `qdiv` (proved equal to `+`, `-`, `*`, `/` below) and `mkRat`
numerals; comparisons, `max`, `min`, `abs`, negation and casts of `ℚ` reduce
as they are.
-/

/-- Kernel-computable clone of rational addition (the library's `Rat.add`
is `@[irreducible]`); `qadd_eq` proves it equal to `+`. -/
def qadd (a b : ℚ) : ℚ :=
  Rat.normalize (a.num * b.den + b.num * a.den) (a.den * b.den)
    (Nat.mul_ne_zero a.den_nz b.den_nz)

/-- Kernel-computable clone of rational subtraction. -/
def qsub (a b : ℚ) : ℚ :=
  Rat.normalize (a.num * b.den - b.num * a.den) (a.den * b.den)
    (Nat.mul_ne_zero a.den_nz b.den_nz)

/-- Kernel-computable clone of rational multiplication. -/
def qmul (a b : ℚ) : ℚ :=
  Rat.normalize (a.num * b.num) (a.den * b.den)
    (Nat.mul_ne_zero a.den_nz b.den_nz)

/-- Kernel-computable clone of rational inversion (`Rat.inv_def`). -/
def qinv (a : ℚ) : ℚ := Rat.divInt a.den a.num

/-- Kernel-computable clone of rational division (`a / b = a * b.inv`). -/
def qdiv (a b : ℚ) : ℚ := qmul a (qinv b)

/-- Fuelled integer square root by bisection (kernel-computable; the
library's `Nat.sqrt` is defined by well-founded recursion, which the kernel
cannot evaluate).  Invariant: `lo * lo ≤ n < hi * hi`. -/
def isqrtAux (n : ℕ) : ℕ → ℕ → ℕ → ℕ
  | 0, lo, _ => lo
  | fuel + 1, lo, hi =>
    let mid := (lo + hi) / 2
    if mid = lo then lo
    else if mid * mid ≤ n then isqrtAux n fuel mid hi
    else isqrtAux n fuel lo mid

/-- Floor integer square root (fuel 64 covers every input a scenario
produces; bisection halves `[0, n+1)` each step). -/
def isqrt (n : ℕ) : ℕ := isqrtAux n 64 0 (n + 1)

/-- Floor rational square root, numerator and denominator rooted
separately — the same floor-floor behaviour as the library's `Rat.sqrt`,
used as one concrete instantiation of the abstract `sqrt` of `MathFns`. -/
def ratSqrt (q : ℚ) : ℚ := mkRat (isqrt q.num.toNat) (isqrt q.den)

/-- Bundle of the numeric library functions the Python code calls
(`math.sqrt`/`** 0.5`/`math.hypot`, `math.cos`, `math.sin`, `math.pi`),
modelled as rational-valued functions. -/
structure MathFns where
  sqrt : ℚ → ℚ
  cos : ℚ → ℚ
  sin : ℚ → ℚ
  pi : ℚ

/-- Seed mode of `_place_cables` (`seed_mode="center"` / `"boundary"`). -/
inductive SeedMode where
  | center
  | boundary
deriving DecidableEq, Repr

/-- One cable dict of `cable_instances`: field `r` (radius, possibly `None`),
the position fields `x`, `y` written by placement, and the nested-item
fields `n_cond`, `r_cond` (read only by the SVG builder). -/
structure Cable where
  r : Option ℚ
  x : Option ℚ
  y : Option ℚ
  n_cond : Option ℕ
  r_cond : Option ℚ
deriving DecidableEq, Repr

/-- The all-`none` cable, used as the out-of-range default of list reads. -/
def Cable.empty : Cable := ⟨none, none, none, none, none⟩

/-- Snapshot of an entry of the Python `placed` list at the moment it was
appended: the index of the dict in the caller's collection and the values of
its `x`, `y`, `r` fields (which placement never rewrites within one call). -/
structure PlacedRec where
  idx : ℕ
  x : ℚ
  y : ℚ
  r : ℚ
deriving DecidableEq, Repr

/-- State of one `_place_cables` call: the caller's (mutated) item list, the
`placed` list and the `unplaced` counter. -/
structure PState where
  store : List Cable
  placed : List PlacedRec
  unplaced : ℕ
deriving DecidableEq, Repr

/-- The angle list of `_place_cables`:
`[angle_offset + i * (math.pi / max(1.0, angle_count / 2.0)) for i in range(angle_count)]`. -/
def anglesList (M : MathFns) (off : ℚ) (count : ℕ) : List ℚ :=
  (List.range count).map fun i =>
    qadd off (qmul (i : ℚ) (qdiv M.pi (max 1 (qdiv (count : ℚ) 2))))

/-- The inner feasibility check `fits(x, y, r, spacing)` of `_place_cables`:
containment `(x*x + y*y) ** 0.5 + r > conduit_radius → False` and pairwise
separation `dx*dx + dy*dy < min_sep*min_sep → False` against every
already-placed circle. -/
def fits (M : MathFns) (R : ℚ) (placed : List PlacedRec) (x y r spacing : ℚ) : Bool :=
  if qadd (M.sqrt (qadd (qmul x x) (qmul y y))) r > R then false
  else
    placed.all fun o =>
      let dx := qsub x o.x
      let dy := qsub y o.y
      let minSep := qadd (qadd r o.r) spacing
      decide (¬ (qadd (qmul dx dx) (qmul dy dy) < qmul minSep minSep))

/-- `circle_intersections(x0, y0, r0, x1, y1, r1)` of `_place_cables`,
including its use of `math.hypot` and `math.sqrt` (both via `M.sqrt`). -/
def circleIntersections (M : MathFns) (x0 y0 r0 x1 y1 r1 : ℚ) : List (ℚ × ℚ) :=
  let dx := qsub x1 x0
  let dy := qsub y1 y0
  let d := M.sqrt (qadd (qmul dx dx) (qmul dy dy))
  if d = 0 ∨ d > qadd r0 r1 ∨ d < |qsub r0 r1| then []
  else
    let a := qdiv (qadd (qsub (qmul r0 r0) (qmul r1 r1)) (qmul d d)) (qmul 2 d)
    let hSq := qsub (qmul r0 r0) (qmul a a)
    if hSq < 0 then []
    else
      let h := M.sqrt hSq
      let xm := qadd x0 (qdiv (qmul a dx) d)
      let ym := qadd y0 (qdiv (qmul a dy) d)
      let rx := qmul (-dy) (qdiv h d)
      let ry := qmul dx (qdiv h d)
      [(qadd xm rx, qadd ym ry), (qsub xm rx, qsub ym ry)]

/-- `current_max`: the running maximum of `math.hypot(o.x, o.y) + o.r`
over the placed circles, starting from `0.0`. -/
def currentMaxQ (M : MathFns) (placed : List PlacedRec) : ℚ :=
  placed.foldl (fun acc o => max acc (qadd (M.sqrt (qadd (qmul o.x o.x) (qmul o.y o.y))) o.r)) 0

/-- The candidate score `(max_extent, extent, x*x + y*y)`. -/
def scoreOf (M : MathFns) (currentMax x y r : ℚ) : ℚ × ℚ × ℚ :=
  let extent := qadd (M.sqrt (qadd (qmul x x) (qmul y y))) r
  (max currentMax extent, extent, qadd (qmul x x) (qmul y y))

/-- Python tuple comparison `score < best_score` (lexicographic). -/
def scoreLt (s t : ℚ × ℚ × ℚ) : Bool :=
  decide (s.1 < t.1 ∨ (s.1 = t.1 ∧ (s.2.1 < t.2.1 ∨ (s.2.1 = t.2.1 ∧ s.2.2 < t.2.2))))

/-- The best-candidate scan of `_place_cables`: walk the candidate list,
skip candidates failing `fits`, and keep the first candidate of strictly
smallest score (`if best_score is None or score < best_score`). -/
def pickBest (M : MathFns) (R : ℚ) (placed : List PlacedRec) (r spacing currentMax : ℚ) :
    List (ℚ × ℚ) → Option ((ℚ × ℚ) × (ℚ × ℚ × ℚ)) → Option ((ℚ × ℚ) × (ℚ × ℚ × ℚ))
  | [], acc => acc
  | (x, y) :: rest, acc =>
    if fits M R placed x y r spacing then
      let sc := scoreOf M currentMax x y r
      match acc with
      | none => pickBest M R placed r spacing currentMax rest (some ((x, y), sc))
      | some (bp, bs) =>
        if scoreLt sc bs then pickBest M R placed r spacing currentMax rest (some ((x, y), sc))
        else pickBest M R placed r spacing currentMax rest (some (bp, bs))
    else pickBest M R placed r spacing currentMax rest acc

/-- The pairwise `for i in range(len(placed)): for j in range(i+1, ...)` loop
collecting two-circle tangency candidates. -/
def pairCands (M : MathFns) (r spacing : ℚ) : List PlacedRec → List (ℚ × ℚ)
  | [] => []
  | o1 :: rest =>
    (rest.flatMap fun o2 =>
      circleIntersections M o1.x o1.y (qadd (qadd o1.r r) spacing)
        o2.x o2.y (qadd (qadd o2.r r) spacing))
      ++ pairCands M r spacing rest

/-- The full candidate list of one spacing pass, in source order: tangent to
one circle (angle sweep), tangent to two circles, then boundary candidates
(generated only when `boundary_r = conduit_radius - r > 0`). -/
def allCands (M : MathFns) (R : ℚ) (placed : List PlacedRec) (r spacing : ℚ)
    (angles : List ℚ) : List (ℚ × ℚ) :=
  (placed.flatMap fun o =>
    angles.map fun a =>
      (qadd o.x (qmul (qadd (qadd o.r r) spacing) (M.cos a)),
       qadd o.y (qmul (qadd (qadd o.r r) spacing) (M.sin a))))
    ++ pairCands M r spacing placed
    ++ (if qsub R r > 0 then
          angles.map fun a => (qmul (qsub R r) (M.cos a), qmul (qsub R r) (M.sin a))
        else [])

/-- Tangency phase of one spacing pass: best feasible candidate of
`allCands`, or `none`. -/
def tangencyBest (M : MathFns) (R : ℚ) (off : ℚ) (count : ℕ) (placed : List PlacedRec)
    (r spacing : ℚ) : Option ((ℚ × ℚ) × (ℚ × ℚ × ℚ)) :=
  let angles := anglesList M off count
  pickBest M R placed r spacing (currentMaxQ M placed) (allCands M R placed r spacing angles) none

/-- The ring fallback `for ring in range(1, 16)` of `_place_cables`: stop as
soon as `ring_r + r > conduit_radius`, otherwise take the best feasible
angle sample of the first ring that has one. -/
def ringSearch (M : MathFns) (R : ℚ) (placed : List PlacedRec) (r spacing currentMax : ℚ)
    (angles : List ℚ) : List ℕ → Option ((ℚ × ℚ) × (ℚ × ℚ × ℚ))
  | [] => none
  | ring :: rest =>
    let ringR := qmul (ring : ℚ) (qmul r (mkRat 11 10))
    if qadd ringR r > R then none
    else
      match pickBest M R placed r spacing currentMax
          (angles.map fun a => (qmul ringR (M.cos a), qmul ringR (M.sin a))) none with
      | some b => some b
      | none => ringSearch M R placed r spacing currentMax angles rest

/-- Ring phase of one spacing pass (entered only with `best is None`,
so the accumulator starts at `none`). -/
def ringBest (M : MathFns) (R : ℚ) (off : ℚ) (count : ℕ) (placed : List PlacedRec)
    (r spacing : ℚ) : Option ((ℚ × ℚ) × (ℚ × ℚ × ℚ)) :=
  ringSearch M R placed r spacing (currentMaxQ M placed) (anglesList M off count)
    (List.range' 1 15)

/-- One full spacing pass of the per-item loop: tangency candidates first,
ring fallback only when they produced no feasible point. -/
def bestAtSpacing (M : MathFns) (R : ℚ) (off : ℚ) (count : ℕ) (placed : List PlacedRec)
    (r spacing : ℚ) : Option (ℚ × ℚ) :=
  match tangencyBest M R off count placed r spacing with
  | some b => some b.1
  | none => (ringBest M R off count placed r spacing).map (·.1)

/-- `spacing_options = [0.5, 0.2, 0.0]`. -/
def spacingOptions : List ℚ := [mkRat 1 2, mkRat 1 5, 0]

/-- The per-item search of `_place_cables`: spacing passes in order, the
item is placed at the first pass that yields a point (`break`). -/
def placeOne (M : MathFns) (R : ℚ) (off : ℚ) (count : ℕ) (placed : List PlacedRec)
    (r : ℚ) : Option (ℚ × ℚ) :=
  spacingOptions.findSome? (bestAtSpacing M R off count placed r)

/-- Seed position of the first placed item: origin in center mode,
`max(0, R - r)` out along the offset angle in boundary mode. -/
def seedPos (M : MathFns) (R off r : ℚ) : SeedMode → ℚ × ℚ
  | SeedMode.boundary =>
    let sr := max 0 (qsub R r)
    (qmul sr (M.cos off), qmul sr (M.sin off))
  | SeedMode.center => (0, 0)

/-- Body of the `for cable in cables_sorted` loop of `_place_cables`,
acting on the threaded state; `i` is the index of the dict in the caller's
collection.  Invalid radii (`None` or `<= 0`) and oversize radii (`> R`)
increment `unplaced`; the first valid item is seeded without a `fits` check;
every later item goes through `placeOne`.  Placement writes the `x`, `y`
fields of the dict in the store. -/
def processCable (M : MathFns) (R off : ℚ) (count : ℕ) (mode : SeedMode)
    (st : PState) (i : ℕ) : PState :=
  match (st.store.getD i Cable.empty).r with
  | none => { st with unplaced := st.unplaced + 1 }
  | some r =>
    if r ≤ 0 then { st with unplaced := st.unplaced + 1 }
    else if r > R then { st with unplaced := st.unplaced + 1 }
    else if st.placed.isEmpty then
      { store := st.store.set i { st.store.getD i Cable.empty with
          x := some (seedPos M R off r mode).1, y := some (seedPos M R off r mode).2 },
        placed := [⟨i, (seedPos M R off r mode).1, (seedPos M R off r mode).2, r⟩],
        unplaced := st.unplaced }
    else
      match placeOne M R off count st.placed r with
      | some p =>
        { store := st.store.set i { st.store.getD i Cable.empty with
            x := some p.1, y := some p.2 },
          placed := st.placed ++ [⟨i, p.1, p.2, r⟩],
          unplaced := st.unplaced }
      | none => { st with unplaced := st.unplaced + 1 }

/-- Sort key `c.get("r") or 0.0`. -/
def sortKey (cables : List Cable) (i : ℕ) : ℚ :=
  ((cables.getD i Cable.empty).r).getD 0

/-- Insertion of an index into a list of indices already sorted by
descending key: the index goes in front of the first entry whose key is
`≤` its own. -/
def insertByKey (key : ℕ → ℚ) (i : ℕ) : List ℕ → List ℕ
  | [] => [i]
  | j :: rest => if key j ≤ key i then i :: j :: rest else j :: insertByKey key i rest

/-- Stable descending sort of indices by key — extensionally the behaviour
of Python's stable `sorted(..., key=..., reverse=True)` (any two stable
sorts agree), written by structural recursion so the kernel can run it. -/
def sortDescIdx (key : ℕ → ℚ) : List ℕ → List ℕ
  | [] => []
  | i :: rest => insertByKey key i (sortDescIdx key rest)

/-- `_place_cables(cables, conduit_radius, angle_offset, angle_count,
seed_mode)`: items are processed largest radius first (stable, so ties keep
input order), each exactly once. -/
def place_cables (M : MathFns) (cables : List Cable) (R : ℚ) (off : ℚ := 0)
    (count : ℕ := 36) (mode : SeedMode := SeedMode.center) : PState :=
  let order := sortDescIdx (sortKey cables) (List.range cables.length)
  order.foldl (processCable M R off count mode) ⟨cables, [], 0⟩

/-- Body of the `for i, cable in enumerate(cables)` loop of
`_place_cables_allow_overlap`: invalid or oversize radii are skipped
silently; index `0` goes to the origin; later indices go on the expanding
spiral `dist = min(R - r, 0.7*r*sqrt(i))`, `angle = 0.7*i`; `overlapPos`
is the position computation of one index. -/
def overlapPos (M : MathFns) (R r : ℚ) (i : ℕ) : ℚ × ℚ :=
  if i = 0 then (0, 0)
  else
    (qmul (min (qsub R r) (qmul (qmul (mkRat 7 10) r) (M.sqrt (i : ℚ))))
       (M.cos (qmul (mkRat 7 10) (i : ℚ))),
     qmul (min (qsub R r) (qmul (qmul (mkRat 7 10) r) (M.sqrt (i : ℚ))))
       (M.sin (qmul (mkRat 7 10) (i : ℚ))))

def overlapStep (M : MathFns) (R : ℚ) (st : List Cable × List PlacedRec) (i : ℕ) :
    List Cable × List PlacedRec :=
  match (st.1.getD i Cable.empty).r with
  | none => st
  | some r =>
    if r ≤ 0 then st
    else if r > R then st
    else
      (st.1.set i { st.1.getD i Cable.empty with
          x := some (overlapPos M R r i).1, y := some (overlapPos M R r i).2 },
       st.2 ++ [⟨i, (overlapPos M R r i).1, (overlapPos M R r i).2, r⟩])

/-- `_place_cables_allow_overlap(cables, conduit_radius)`. -/
def place_cables_allow_overlap (M : MathFns) (cables : List Cable) (R : ℚ) :
    List Cable × List PlacedRec :=
  (List.range cables.length).foldl (overlapStep M R) (cables, [])

/-- The layout-tightness metric of the retry block:
`extent = max(extent, math.hypot(c["x"], c["y"]) + c["r"])` over a placed
list, starting from `0.0`. -/
def extentQ (M : MathFns) (placed : List PlacedRec) : ℚ :=
  placed.foldl (fun acc o => max acc (qadd (M.sqrt (qadd (qmul o.x o.x) (qmul o.y o.y))) o.r)) 0

/-- The retry offsets `[0.0, pi/36, pi/18, pi/12, pi/9]`. -/
def msOffsets (M : MathFns) : List ℚ :=
  [0, qdiv M.pi 36, qdiv M.pi 18, qdiv M.pi 12, qdiv M.pi 9]

/-- The retry configurations, in loop order: seed mode `center` then
`boundary`, each over the five offsets, all with `angle_count=48`. -/
def msConfigs (M : MathFns) : List (SeedMode × ℚ) :=
  [SeedMode.center, SeedMode.boundary].flatMap fun m => (msOffsets M).map fun o => (m, o)

/-- Best-attempt bookkeeping of the retry block
(`best_placed`, `best_unplaced`, `best_extent`). -/
structure MSState where
  store : List Cable
  bestPlaced : List PlacedRec
  bestUnplaced : ℕ
  bestExtent : Option ℚ
deriving DecidableEq, Repr

/-- One iteration of the retry loop: run `_place_cables` on the (shared,
already mutated) item list; a fully-placed attempt replaces the best when
its extent strictly improves (`best_extent is None or extent <
best_extent`); a partial attempt replaces it only when its unplaced count
strictly improves. -/
def msStep (M : MathFns) (R : ℚ) (s : MSState) (cfg : SeedMode × ℚ) : MSState :=
  let res := place_cables M s.store R cfg.2 48 cfg.1
  if res.unplaced = 0 then
    let e := extentQ M res.placed
    match s.bestExtent with
    | none => ⟨res.store, res.placed, res.unplaced, some e⟩
    | some be =>
      if e < be then ⟨res.store, res.placed, res.unplaced, some e⟩
      else ⟨res.store, s.bestPlaced, s.bestUnplaced, s.bestExtent⟩
  else if res.unplaced < s.bestUnplaced then
    ⟨res.store, res.placed, res.unplaced, s.bestExtent⟩
  else
    ⟨res.store, s.bestPlaced, s.bestUnplaced, s.bestExtent⟩

/-- The multi-seed block of the caller: one default attempt
(center seed, offset 0, 36 samples); when it leaves items unplaced, the ten
retry configurations run in order on the shared item list and the
bookkeeping keeps the best attempt.  The returned store is the item list
after the final attempt. -/
def multiSeed (M : MathFns) (cables : List Cable) (R : ℚ) : PState :=
  if (place_cables M cables R 0 36 SeedMode.center).unplaced = 0 then
    place_cables M cables R 0 36 SeedMode.center
  else
    ⟨((msConfigs M).foldl (msStep M R)
        ⟨(place_cables M cables R 0 36 SeedMode.center).store,
         (place_cables M cables R 0 36 SeedMode.center).placed,
         (place_cables M cables R 0 36 SeedMode.center).unplaced, none⟩).store,
     ((msConfigs M).foldl (msStep M R)
        ⟨(place_cables M cables R 0 36 SeedMode.center).store,
         (place_cables M cables R 0 36 SeedMode.center).placed,
         (place_cables M cables R 0 36 SeedMode.center).unplaced, none⟩).bestPlaced,
     ((msConfigs M).foldl (msStep M R)
        ⟨(place_cables M cables R 0 36 SeedMode.center).store,
         (place_cables M cables R 0 36 SeedMode.center).placed,
         (place_cables M cables R 0 36 SeedMode.center).unplaced, none⟩).bestUnplaced⟩

/-- The feasibility check `fits(x, y, rr, spacing)` of
`_pack_circles_in_circle`: containment `math.hypot(x, y) + rr > R → False`
and separation `dx*dx + dy*dy < (2*rr + spacing)**2 → False`. -/
def packFits (M : MathFns) (R : ℚ) (placed : List (ℚ × ℚ)) (x y r spacing : ℚ) : Bool :=
  if qadd (M.sqrt (qadd (qmul x x) (qmul y y))) r > R then false
  else
    placed.all fun o =>
      let dx := qsub x o.1
      let dy := qsub y o.2
      let minSep := qadd (qmul 2 r) spacing
      decide (¬ (qadd (qmul dx dx) (qmul dy dy) < qmul minSep minSep))

/-- The fixed angle list of `_pack_circles_in_circle`:
`[i * (math.pi / 18.0) for i in range(36)]`. -/
def packAngles (M : MathFns) : List ℚ :=
  (List.range 36).map fun i => qmul (i : ℚ) (qdiv M.pi 18)

/-- Best-candidate scan of `_pack_circles_in_circle` (score `x*x + y*y`,
first strict improvement wins). -/
def packPick (M : MathFns) (R : ℚ) (placed : List (ℚ × ℚ)) (r spacing : ℚ) :
    List (ℚ × ℚ) → Option ((ℚ × ℚ) × ℚ) → Option ((ℚ × ℚ) × ℚ)
  | [], acc => acc
  | (x, y) :: rest, acc =>
    if packFits M R placed x y r spacing then
      let sc := qadd (qmul x x) (qmul y y)
      match acc with
      | none => packPick M R placed r spacing rest (some ((x, y), sc))
      | some (bp, bs) =>
        if sc < bs then packPick M R placed r spacing rest (some ((x, y), sc))
        else packPick M R placed r spacing rest (some (bp, bs))
    else packPick M R placed r spacing rest acc

/-- Pairwise intersection candidates of `_pack_circles_in_circle`
(both radii `2*r + spacing`). -/
def packPairCands (M : MathFns) (r spacing : ℚ) : List (ℚ × ℚ) → List (ℚ × ℚ)
  | [] => []
  | o1 :: rest =>
    (rest.flatMap fun o2 =>
      circleIntersections M o1.1 o1.2 (qadd (qmul 2 r) spacing)
        o2.1 o2.2 (qadd (qmul 2 r) spacing))
      ++ packPairCands M r spacing rest

/-- Ring fallback of `_pack_circles_in_circle`: `for ring in range(1, 12)`,
stopping at `ring_r + r > R`. -/
def packRing (M : MathFns) (R : ℚ) (placed : List (ℚ × ℚ)) (r spacing : ℚ)
    (angles : List ℚ) : List ℕ → Option ((ℚ × ℚ) × ℚ)
  | [] => none
  | ring :: rest =>
    let ringR := qmul (ring : ℚ) (qmul r (mkRat 11 10))
    if qadd ringR r > R then none
    else
      match packPick M R placed r spacing
          (angles.map fun a => (qmul ringR (M.cos a), qmul ringR (M.sin a))) none with
      | some b => some b
      | none => packRing M R placed r spacing angles rest

/-- One spacing pass of the `while` loop of `_pack_circles_in_circle`:
tangency candidates (single and pairwise), then the ring fallback. -/
def packTry (M : MathFns) (R : ℚ) (placed : List (ℚ × ℚ)) (r : ℚ) (spacing : ℚ) :
    Option (ℚ × ℚ) :=
  let angles := packAngles M
  let cands :=
    (placed.flatMap fun o =>
      angles.map fun a =>
        (qadd o.1 (qmul (qadd (qmul 2 r) spacing) (M.cos a)),
         qadd o.2 (qmul (qadd (qmul 2 r) spacing) (M.sin a))))
      ++ packPairCands M r spacing placed
  match packPick M R placed r spacing cands none with
  | some b => some b.1
  | none => (packRing M R placed r spacing angles (List.range' 1 11)).map (·.1)

/-- One iteration of the `while len(placed) < n` loop: spacing options
`[0.2, 0.0]`, first success wins. -/
def packStepOnce (M : MathFns) (R : ℚ) (placed : List (ℚ × ℚ)) (r : ℚ) : Option (ℚ × ℚ) :=
  [mkRat 1 5, 0].findSome? (packTry M R placed r)

/-- The `while` loop of `_pack_circles_in_circle`, fuelled: each round
either appends one circle or stops (`break` on failure). -/
def packLoop (M : MathFns) (R r : ℚ) (n : ℕ) : ℕ → List (ℚ × ℚ) → List (ℚ × ℚ)
  | 0, placed => placed
  | fuel + 1, placed =>
    if placed.length < n then
      match packStepOnce M R placed r with
      | some p => packLoop M R r n fuel (placed ++ [p])
      | none => placed
    else placed

/-- `_pack_circles_in_circle(n, r, R)` with its input guards (Python
truthiness of `n`, `r`, `R` plus the sign checks), the `n == 1` shortcut
and the seeded loop. -/
def pack_circles_in_circle (M : MathFns) (n : ℕ) (r R : ℚ) : List (ℚ × ℚ) :=
  if n = 0 ∨ r = 0 ∨ R = 0 ∨ r ≤ 0 ∨ R ≤ 0 then []
  else if r > R then []
  else if n = 1 then [(0, 0)]
  else packLoop M R r n n [(0, 0)]

/-- The conductor shrink-retry loop of `_build_conduit_svg`
(`for _ in range(15)`): pack, stop when enough positions were produced,
otherwise shrink the radius by `0.9`; when the budget runs out the last
positions are kept while the radius has already been shrunk once more. -/
def shrinkLoop (M : MathFns) (n : ℕ) (Rin : ℚ) : ℕ → ℚ → ℚ × List (ℚ × ℚ)
  | 0, ru => (ru, [])
  | fuel + 1, ru =>
    let ps := pack_circles_in_circle M n ru Rin
    if n ≤ ps.length then (ru, ps)
    else if fuel = 0 then (qmul ru (mkRat 9 10), ps)
    else shrinkLoop M n Rin fuel (qmul ru (mkRat 9 10))

/-- The nested-conductor layout block of `_build_conduit_svg` for one
placed cable: inner margin `0.6`, child region radius `R_inner = r - 0.6`
(the block runs only when positive and `n_cond` is truthy), derived or
clamped conductor radius (`condRu0`), 15 shrink attempts, and the first
`n_cond` positions of the final attempt. -/
def condRu0 (M : MathFns) (nCond : ℕ) (rCond : Option ℚ) (r : ℚ) : ℚ :=
  match rCond with
  | none =>
    qdiv (qsub r (mkRat 3 5)) (max (qmul (mkRat 8 5) (M.sqrt (nCond : ℚ))) (mkRat 8 5))
  | some rc =>
    if rc ≤ 0 then
      qdiv (qsub r (mkRat 3 5)) (max (qmul (mkRat 8 5) (M.sqrt (nCond : ℚ))) (mkRat 8 5))
    else min rc (qsub r (mkRat 3 5))

def conductorLayout (M : MathFns) (nCond : ℕ) (rCond : Option ℚ) (r : ℚ) :
    Option (ℚ × List (ℚ × ℚ)) :=
  if nCond = 0 then none
  else if qsub r (mkRat 3 5) > 0 then
    some ((shrinkLoop M nCond (qsub r (mkRat 3 5)) 15 (condRu0 M nCond rCond r)).1,
          (shrinkLoop M nCond (qsub r (mkRat 3 5)) 15 (condRu0 M nCond rCond r)).2.take nCond)
  else none

/-- Modelled from the spec (S4.2/S4.3, claim C6): the per-item search as the
spec words it — the whole decreasing tolerance sequence is exhausted over
tangency candidates first, and the ring fallback is invoked only after no
tolerance yields a feasible tangency candidate. -/
def placeOneSpecOrder (M : MathFns) (R : ℚ) (off : ℚ) (count : ℕ)
    (placed : List PlacedRec) (r : ℚ) : Option (ℚ × ℚ) :=
  match spacingOptions.findSome?
      (fun s => (tangencyBest M R off count placed r s).map (·.1)) with
  | some p => some p
  | none =>
    spacingOptions.findSome? (fun s => (ringBest M R off count placed r s).map (·.1))

/-- Claim C4's reading of the retry block's result: the coordinates stored
on the caller's items agree with the placed records of the selected
attempt. -/
def msCoordsFaithful (M : MathFns) (cables : List Cable) (R : ℚ) : Prop :=
  ∀ p ∈ (multiSeed M cables R).placed,
    ((multiSeed M cables R).store.getD p.idx Cable.empty).x = some p.x ∧
    ((multiSeed M cables R).store.getD p.idx Cable.empty).y = some p.y

instance (M : MathFns) (cables : List Cable) (R : ℚ) :
    Decidable (msCoordsFaithful M cables R) := by
  unfold msCoordsFaithful; infer_instance

/-- Attempt bookkeeping without the store: the selection state
(`best_placed`, `best_unplaced`, `best_extent`) of the retry block. -/
structure Sel where
  placed : List PlacedRec
  unplaced : ℕ
  extent : Option ℚ
deriving DecidableEq, Repr

/-- The pure selection rule of the retry block, applied to one attempt
result. -/
def selStep (M : MathFns) (s : Sel) (res : PState) : Sel :=
  if res.unplaced = 0 then
    let e := extentQ M res.placed
    match s.extent with
    | none => ⟨res.placed, res.unplaced, some e⟩
    | some be =>
      if e < be then ⟨res.placed, res.unplaced, some e⟩
      else ⟨s.placed, s.unplaced, s.extent⟩
  else if res.unplaced < s.unplaced then ⟨res.placed, res.unplaced, s.extent⟩
  else ⟨s.placed, s.unplaced, s.extent⟩

/-- The sequence of retry attempt results, each run on the store left
behind by the previous attempt (the shared, mutated item list). -/
def msAttempts (M : MathFns) (R : ℚ) : List (SeedMode × ℚ) → List Cable → List PState
  | [], _ => []
  | cfg :: rest, store =>
    let res := place_cables M store R cfg.2 48 cfg.1
    res :: msAttempts M R rest res.store

/-- The store after the last of a list of attempts. -/
def lastStore : List PState → List Cable → List Cable
  | [], s => s
  | a :: rest, _ => lastStore rest a.store

/-- Degenerate math bundle (square root constantly `0`, direction constantly
`(1, 0)`): under it every containment check passes, which makes small
concrete engine runs cheap to evaluate. -/
def mzero : MathFns := ⟨fun _ => 0, fun _ => 1, fun _ => 0, 0⟩

/-- Math bundle whose square root over-approximates (`sqrt v = v + 1`
satisfies `SqrtDom`) with direction constantly `(1, 0)`. -/
def mone : MathFns := ⟨fun v => qadd v 1, fun _ => 1, fun _ => 0, 0⟩

/-- Math bundle of the multi-seed aliasing scenario: floor square root and
a direction table on the angle grid `{0, 1, ..}` (`pi = 36` makes the
sampled angles small integers and half-integers). -/
def mx4 : MathFns where
  sqrt := ratSqrt
  cos := fun t =>
    if t = 3 then -1
    else if t = 1 ∨ t = 2 ∨ t = 4 then mkRat 3 5
    else if t = 0 then 1 else 0
  sin := fun t =>
    if t = 3 then 0
    else if t = 1 ∨ t = 2 ∨ t = 4 then mkRat 4 5
    else if t = 0 then 0 else 1
  pi := 36

/-- Two items of radius `4` for the bounding radius `10`: the default
attempt places only one, so the retry block runs. -/
def cs4 : List Cable :=
  [⟨some 4, none, none, none, none⟩, ⟨some 4, none, none, none, none⟩]

/-- Math bundle of the ring-fallback-order scenario. -/
def mx6 : MathFns where
  sqrt := ratSqrt
  cos := fun t => if t = 0 then 0 else if t = 2 then mkRat (-19) 10 else 0
  sin := fun t => if t = 0 then 1 else if t = 2 then 0 else mkRat 11 10
  pi := 36

/-- Items of radii `3, 3, 2` for the bounding radius `12`: for the third
item the tolerance-`0.5` tangency pass fails, its ring fallback succeeds,
and the tolerance-`0.2` tangency pass would also have succeeded elsewhere. -/
def cs6 : List Cable :=
  [⟨some 3, none, none, none, none⟩, ⟨some 3, none, none, none, none⟩,
   ⟨some 2, none, none, none, none⟩]

/-- Math bundle of the sample-count monotonicity scenario: the unit
direction `(1, 0)` appears on the 36-sample grid only (angle `2`), every
other sampled angle maps to the shorter direction `0.99 * (3/5, 4/5)`. -/
def mx9 : MathFns where
  sqrt := ratSqrt
  cos := fun t => if t = 2 then 1 else mkRat 297 500
  sin := fun t => if t = 2 then 0 else mkRat 396 500
  pi := 36

/-- Two items of radius `3` for the bounding radius `10`. -/
def cs9 : List Cable :=
  [⟨some 3, none, none, none, none⟩, ⟨some 3, none, none, none, none⟩]

/-- Math bundle whose square root is constantly `100`: every containment
check of the per-item search fails, so `placeOne` returns `none` and the
item is recorded unplaced. -/
def mbig : MathFns := ⟨fun _ => 100, fun _ => 1, fun _ => 0, 0⟩

/-- Soundness of an abstract square root used for upper containment bounds:
nonnegative values get a nonnegative result whose square dominates the
input, so the result dominates the true square root. -/
def SqrtDom (f : ℚ → ℚ) : Prop := ∀ v : ℚ, 0 ≤ v → 0 ≤ f v ∧ v ≤ f v * f v

/-- Lower-bound soundness of an abstract square root: the result never
exceeds any nonnegative number whose square dominates the input. -/
def SqrtLB (f : ℚ → ℚ) : Prop := ∀ v w : ℚ, 0 ≤ w → v ≤ w * w → f v ≤ w

/-- The abstract direction samples never leave the unit disk. -/
def TrigBound (M : MathFns) : Prop :=
  ∀ t : ℚ, M.cos t * M.cos t + M.sin t * M.sin t ≤ 1

/-- Non-overlap of two placed records (tangency allowed). -/
def SepOK (a b : PlacedRec) : Prop :=
  (a.r + b.r) * (a.r + b.r) ≤ (a.x - b.x) * (a.x - b.x) + (a.y - b.y) * (a.y - b.y)

/-- A placed record has a valid radius for the bounding radius `R`. -/
def GoodRec (R : ℚ) (p : PlacedRec) : Prop := 0 < p.r ∧ p.r ≤ R

/-- Validity-and-separation invariant of a placed list. -/
def PlacedOK (R : ℚ) (l : List PlacedRec) : Prop :=
  (∀ p ∈ l, GoodRec R p) ∧ l.Pairwise SepOK

/-- Real containment of a placed record in the bounding disk. -/
def InDisk (R : ℚ) (p : PlacedRec) : Prop :=
  Real.sqrt ((p.x : ℝ) ^ 2 + (p.y : ℝ) ^ 2) + (p.r : ℝ) ≤ (R : ℝ)

/-- Real containment of a nested position of radius `rr` in the child disk. -/
def InDisk2 (R rr : ℚ) (p : ℚ × ℚ) : Prop :=
  Real.sqrt ((p.1 : ℝ) ^ 2 + (p.2 : ℝ) ^ 2) + (rr : ℝ) ≤ (R : ℝ)

/-- Containment of a placed record as the engine itself measures it,
through the abstract square root. -/
def QDisk (M : MathFns) (R : ℚ) (p : PlacedRec) : Prop :=
  M.sqrt (p.x * p.x + p.y * p.y) + p.r ≤ R

/-- The placement engine leaves the caller's items intact except for the
`x`, `y` position fields: same length, same `r`, `n_cond`, `r_cond`
everywhere. -/
def StoreShape (s t : List Cable) : Prop :=
  t.length = s.length ∧
  ∀ i : ℕ, (t.getD i Cable.empty).r = (s.getD i Cable.empty).r ∧
    (t.getD i Cable.empty).n_cond = (s.getD i Cable.empty).n_cond ∧
    (t.getD i Cable.empty).r_cond = (s.getD i Cable.empty).r_cond

theorem qadd_eq (a b : ℚ) : qadd a b = a + b := (Rat.add_def a b).symm

theorem qsub_eq (a b : ℚ) : qsub a b = a - b := (Rat.sub_def a b).symm

theorem qmul_eq (a b : ℚ) : qmul a b = a * b := (Rat.mul_def a b).symm

theorem qinv_eq (a : ℚ) : qinv a = a⁻¹ := (Rat.inv_def a).symm

theorem qdiv_eq (a b : ℚ) : qdiv a b = a / b := by
  rw [qdiv, qmul_eq, qinv_eq, div_eq_mul_inv]

theorem spacing_mem_nonneg : ∀ s ∈ spacingOptions, 0 ≤ s := by
  intro s hs
  simp only [spacingOptions, List.mem_cons, List.not_mem_nil, or_false] at hs
  rcases hs with rfl | rfl | rfl <;> decide

theorem fits_true {M : MathFns} {R : ℚ} {placed : List PlacedRec} {x y r s : ℚ}
    (h : fits M R placed x y r s = true) :
    M.sqrt (x * x + y * y) + r ≤ R ∧
      ∀ o ∈ placed,
        (r + o.r + s) * (r + o.r + s) ≤ (x - o.x) * (x - o.x) + (y - o.y) * (y - o.y) := by
  unfold fits at h
  simp only [qadd_eq, qsub_eq, qmul_eq] at h
  split at h
  · cases h
  · next hc =>
    push_neg at hc
    refine ⟨hc, ?_⟩
    simp only [List.all_eq_true, decide_eq_true_eq] at h
    intro o ho
    have := h o ho
    push_neg at this
    linarith [this]

theorem pickBest_some {M : MathFns} {R : ℚ} {placed : List PlacedRec} {r s cm : ℚ} :
    ∀ (cands : List (ℚ × ℚ)) (acc : Option ((ℚ × ℚ) × (ℚ × ℚ × ℚ)))
      {p : ℚ × ℚ} {sc : ℚ × ℚ × ℚ},
      (∀ q sq, acc = some (q, sq) → fits M R placed q.1 q.2 r s = true) →
      pickBest M R placed r s cm cands acc = some (p, sc) →
      fits M R placed p.1 p.2 r s = true
  | [], acc, p, sc, hacc, h => hacc p sc h
  | (x, y) :: rest, acc, p, sc, hacc, h => by
    rw [pickBest] at h
    split at h
    · next hfit =>
      match hacc2 : acc with
      | none =>
        subst hacc2
        exact pickBest_some rest _ (fun q sq hq => by cases hq; exact hfit) h
      | some (bp, bs) =>
        subst hacc2
        dsimp only at h
        split at h
        · exact pickBest_some rest _ (fun q sq hq => by cases hq; exact hfit) h
        · exact pickBest_some rest _ (fun q sq hq => by cases hq; exact hacc bp bs rfl) h
    · exact pickBest_some rest _ hacc h

theorem ringSearch_some {M : MathFns} {R : ℚ} {placed : List PlacedRec}
    {r s cm : ℚ} {angles : List ℚ} :
    ∀ (rings : List ℕ) {p : ℚ × ℚ} {sc : ℚ × ℚ × ℚ},
      ringSearch M R placed r s cm angles rings = some (p, sc) →
      fits M R placed p.1 p.2 r s = true
  | [], p, sc, h => by cases h
  | ring :: rest, p, sc, h => by
    rw [ringSearch] at h
    split at h
    · cases h
    · split at h
      · next b heq =>
        cases h
        exact pickBest_some _ none (fun q sq hq => by cases hq) heq
      · exact ringSearch_some rest h

theorem bestAtSpacing_some {M : MathFns} {R off : ℚ} {count : ℕ}
    {placed : List PlacedRec} {r s : ℚ} {p : ℚ × ℚ}
    (h : bestAtSpacing M R off count placed r s = some p) :
    fits M R placed p.1 p.2 r s = true := by
  rw [bestAtSpacing] at h
  split at h
  · next b heq =>
    cases h
    exact pickBest_some _ none (fun q sq hq => by cases hq) heq
  · simp only [Option.map_eq_some'] at h
    obtain ⟨⟨q, sq⟩, hq, rfl⟩ := h
    exact ringSearch_some _ hq

theorem placeOne_some {M : MathFns} {R off : ℚ} {count : ℕ}
    {placed : List PlacedRec} {r : ℚ} {p : ℚ × ℚ}
    (h : placeOne M R off count placed r = some p) :
    ∃ s ∈ spacingOptions, fits M R placed p.1 p.2 r s = true := by
  rw [placeOne] at h
  obtain ⟨s, hs, hfit⟩ := List.exists_of_findSome?_eq_some h
  exact ⟨s, hs, bestAtSpacing_some hfit⟩

theorem sep_of_fits {M : MathFns} {R : ℚ} {placed : List PlacedRec} {r s : ℚ}
    (hs : 0 ≤ s) (hr : 0 < r) (hplaced : ∀ p ∈ placed, 0 < p.r)
    {p : ℚ × ℚ} (hf : fits M R placed p.1 p.2 r s = true) (i : ℕ) :
    ∀ a ∈ placed, SepOK a ⟨i, p.1, p.2, r⟩ := by
  intro a ha
  have h2 := (fits_true hf).2 a ha
  have hra := hplaced a ha
  unfold SepOK
  dsimp only
  nlinarith [h2]

theorem processCable_cases (M : MathFns) (R off : ℚ) (count : ℕ) (mode : SeedMode)
    (st : PState) (i : ℕ) :
    processCable M R off count mode st i = { st with unplaced := st.unplaced + 1 } ∨
    (∃ r, (st.store.getD i Cable.empty).r = some r ∧ 0 < r ∧ r ≤ R ∧ st.placed = [] ∧
      processCable M R off count mode st i =
        ⟨st.store.set i { st.store.getD i Cable.empty with
            x := some (seedPos M R off r mode).1, y := some (seedPos M R off r mode).2 },
          [⟨i, (seedPos M R off r mode).1, (seedPos M R off r mode).2, r⟩], st.unplaced⟩) ∨
    (∃ r p, (st.store.getD i Cable.empty).r = some r ∧ 0 < r ∧ r ≤ R ∧
      placeOne M R off count st.placed r = some p ∧
      processCable M R off count mode st i =
        ⟨st.store.set i { st.store.getD i Cable.empty with
            x := some p.1, y := some p.2 },
          st.placed ++ [⟨i, p.1, p.2, r⟩], st.unplaced⟩) := by
  unfold processCable
  cases hr : (st.store.getD i Cable.empty).r with
  | none => exact Or.inl rfl
  | some r =>
    dsimp only
    split
    · exact Or.inl rfl
    · next h1 =>
      split
      · exact Or.inl rfl
      · next h2 =>
        split
        · next hEmpty =>
          exact Or.inr (Or.inl ⟨r, rfl, lt_of_not_le h1, le_of_not_lt h2,
            List.isEmpty_iff.mp hEmpty, rfl⟩)
        · next hEmpty =>
          cases hpl : placeOne M R off count st.placed r with
          | none => exact Or.inl rfl
          | some p =>
            exact Or.inr (Or.inr ⟨r, p, rfl, lt_of_not_le h1, le_of_not_lt h2, hpl, rfl⟩)

theorem processCable_ok (M : MathFns) (R off : ℚ) (count : ℕ) (mode : SeedMode)
    (st : PState) (i : ℕ) (h : PlacedOK R st.placed) :
    PlacedOK R (processCable M R off count mode st i).placed := by
  rcases processCable_cases M R off count mode st i with heq |
    ⟨r, hr, h1, h2, hemp, heq⟩ | ⟨r, p, hr, h1, h2, hpl, heq⟩
  · rw [heq]; exact h
  · rw [heq]
    refine ⟨?_, List.pairwise_singleton _ _⟩
    intro q hq
    rcases List.mem_singleton.mp hq with rfl
    exact ⟨h1, h2⟩
  · rw [heq]
    obtain ⟨s, hsmem, hfit⟩ := placeOne_some hpl
    have hs0 := spacing_mem_nonneg s hsmem
    refine ⟨?_, ?_⟩
    · intro q hq
      rcases List.mem_append.mp hq with hq | hq
      · exact h.1 q hq
      · rcases List.mem_singleton.mp hq with rfl
        exact ⟨h1, h2⟩
    · rw [List.pairwise_append]
      refine ⟨h.2, List.pairwise_singleton _ _, ?_⟩
      intro a ha b hb
      rcases List.mem_singleton.mp hb with rfl
      exact sep_of_fits hs0 h1 (fun q hq => (h.1 q hq).1) hfit i a ha

theorem foldl_processCable_ok (M : MathFns) (R off : ℚ) (count : ℕ) (mode : SeedMode) :
    ∀ (l : List ℕ) (st : PState), PlacedOK R st.placed →
      PlacedOK R (l.foldl (processCable M R off count mode) st).placed
  | [], _, h => h
  | i :: rest, st, h =>
    foldl_processCable_ok M R off count mode rest _ (processCable_ok M R off count mode st i h)

theorem place_cables_ok (M : MathFns) (cables : List Cable) (R off : ℚ)
    (count : ℕ) (mode : SeedMode) :
    PlacedOK R (place_cables M cables R off count mode).placed := by
  unfold place_cables
  exact foldl_processCable_ok M R off count mode _ _ ⟨fun p hp => absurd hp (List.not_mem_nil p), List.Pairwise.nil⟩

theorem processCable_count (M : MathFns) (R off : ℚ) (count : ℕ) (mode : SeedMode)
    (st : PState) (i : ℕ) :
    (processCable M R off count mode st i).placed.length +
      (processCable M R off count mode st i).unplaced =
      st.placed.length + st.unplaced + 1 := by
  rcases processCable_cases M R off count mode st i with heq |
    ⟨r, hr, h1, h2, hemp, heq⟩ | ⟨r, p, hr, h1, h2, hpl, heq⟩
  · rw [heq]; dsimp; omega
  · rw [heq, hemp]; dsimp; omega
  · rw [heq]; dsimp; rw [List.length_append]; dsimp; omega

theorem foldl_processCable_count (M : MathFns) (R off : ℚ) (count : ℕ) (mode : SeedMode) :
    ∀ (l : List ℕ) (st : PState),
      (l.foldl (processCable M R off count mode) st).placed.length +
        (l.foldl (processCable M R off count mode) st).unplaced =
        st.placed.length + st.unplaced + l.length
  | [], st => rfl
  | i :: rest, st => by
    have hstep := processCable_count M R off count mode st i
    have := foldl_processCable_count M R off count mode rest (processCable M R off count mode st i)
    simp only [List.foldl_cons, List.length_cons]
    omega

theorem length_insertByKey (key : ℕ → ℚ) (i : ℕ) :
    ∀ l : List ℕ, (insertByKey key i l).length = l.length + 1
  | [] => rfl
  | j :: rest => by
    rw [insertByKey]
    split
    · rfl
    · simp only [List.length_cons, length_insertByKey key i rest]

theorem length_sortDescIdx (key : ℕ → ℚ) :
    ∀ l : List ℕ, (sortDescIdx key l).length = l.length
  | [] => rfl
  | i :: rest => by
    rw [sortDescIdx, length_insertByKey, length_sortDescIdx key rest, List.length_cons]

theorem storeShape_rfl (s : List Cable) : StoreShape s s :=
  ⟨rfl, fun _ => ⟨rfl, rfl, rfl⟩⟩

theorem storeShape_trans {s t u : List Cable} (h1 : StoreShape s t) (h2 : StoreShape t u) :
    StoreShape s u :=
  ⟨h2.1.trans h1.1,
   fun i => ⟨((h2.2 i).1).trans ((h1.2 i).1), ((h2.2 i).2.1).trans ((h1.2 i).2.1),
     ((h2.2 i).2.2).trans ((h1.2 i).2.2)⟩⟩

theorem getD_eq_getElem? (l : List Cable) (i : ℕ) :
    l.getD i Cable.empty = (l[i]?).getD Cable.empty := by
  rw [List.getD, List.get?_eq_getElem?]

theorem storeShape_set_xy (store : List Cable) (i : ℕ) (a b : Option ℚ) :
    StoreShape store
      (store.set i { store.getD i Cable.empty with x := a, y := b }) := by
  refine ⟨List.length_set store i _, fun j => ?_⟩
  rw [getD_eq_getElem?, getD_eq_getElem? store j, List.getElem?_set]
  split
  · next hij =>
    subst hij
    split
    · next hlen =>
      rw [List.getElem?_eq_getElem hlen]
      simp only [Option.getD_some]
      rw [getD_eq_getElem?, List.getElem?_eq_getElem hlen]
      exact ⟨rfl, rfl, rfl⟩
    · next hlen =>
      rw [List.getElem?_eq_none_iff.mpr (le_of_not_lt hlen)]
      exact ⟨rfl, rfl, rfl⟩
  · exact ⟨rfl, rfl, rfl⟩

theorem processCable_store (M : MathFns) (R off : ℚ) (count : ℕ) (mode : SeedMode)
    (st : PState) (i : ℕ) :
    StoreShape st.store (processCable M R off count mode st i).store := by
  rcases processCable_cases M R off count mode st i with heq |
    ⟨r, hr, h1, h2, hemp, heq⟩ | ⟨r, p, hr, h1, h2, hpl, heq⟩
  · rw [heq]; exact storeShape_rfl _
  · rw [heq]; exact storeShape_set_xy _ _ _ _
  · rw [heq]; exact storeShape_set_xy _ _ _ _

theorem foldl_processCable_store (M : MathFns) (R off : ℚ) (count : ℕ) (mode : SeedMode) :
    ∀ (l : List ℕ) (st : PState),
      StoreShape st.store (l.foldl (processCable M R off count mode) st).store
  | [], _ => storeShape_rfl _
  | i :: rest, st =>
    storeShape_trans (processCable_store M R off count mode st i)
      (foldl_processCable_store M R off count mode rest _)

theorem sqrt_dom_le {f : ℚ → ℚ} (hf : SqrtDom f) {v : ℚ} (hv : 0 ≤ v) :
    Real.sqrt (v : ℝ) ≤ ((f v : ℚ) : ℝ) := by
  obtain ⟨h0, h2⟩ := hf v hv
  have hcast : (v : ℝ) ≤ ((f v : ℚ) : ℝ) ^ 2 := by
    have h2' : (v : ℝ) ≤ ((f v : ℚ) : ℝ) * ((f v : ℚ) : ℝ) := by exact_mod_cast h2
    nlinarith [h2']
  calc Real.sqrt (v : ℝ) ≤ Real.sqrt (((f v : ℚ) : ℝ) ^ 2) := Real.sqrt_le_sqrt hcast
    _ = ((f v : ℚ) : ℝ) := Real.sqrt_sq (by exact_mod_cast h0)

theorem inDisk_of_fits {M : MathFns} {R : ℚ} {placed : List PlacedRec} {x y r s : ℚ}
    (hdom : SqrtDom M.sqrt) (hf : fits M R placed x y r s = true) (i : ℕ) :
    InDisk R ⟨i, x, y, r⟩ := by
  have h1 := (fits_true hf).1
  have hv : (0 : ℚ) ≤ x * x + y * y := by nlinarith [sq_nonneg x, sq_nonneg y]
  have hle := sqrt_dom_le hdom hv
  unfold InDisk
  dsimp only
  have hxy : ((x : ℝ)) ^ 2 + ((y : ℝ)) ^ 2 = (((x * x + y * y : ℚ)) : ℝ) := by
    push_cast
    ring
  rw [hxy]
  have h1' : ((M.sqrt (x * x + y * y) : ℚ) : ℝ) + (r : ℝ) ≤ (R : ℝ) := by exact_mod_cast h1
  linarith

theorem seed_inDisk {M : MathFns} {R off r : ℚ} {mode : SeedMode}
    (ht : TrigBound M) (h2 : r ≤ R) (i : ℕ) :
    InDisk R ⟨i, (seedPos M R off r mode).1, (seedPos M R off r mode).2, r⟩ := by
  cases mode with
  | center =>
    unfold seedPos InDisk
    dsimp only
    push_cast
    rw [show (0 : ℝ) ^ 2 + (0 : ℝ) ^ 2 = 0 by ring, Real.sqrt_zero]
    have : (r : ℝ) ≤ (R : ℝ) := by exact_mod_cast h2
    linarith
  | boundary =>
    unfold seedPos InDisk
    simp only [qsub_eq, qmul_eq]
    have hsr0 : (0 : ℚ) ≤ max 0 (R - r) := le_max_left _ _
    have hsrR : max 0 (R - r) ≤ R - r := max_le (by linarith) le_rfl
    have htr := ht off
    set sr := max 0 (R - r) with hsr
    have hsq : ((sr * M.cos off : ℚ) : ℝ) ^ 2 + ((sr * M.sin off : ℚ) : ℝ) ^ 2 ≤
        ((sr : ℚ) : ℝ) ^ 2 := by
      have htr' : ((M.cos off : ℚ) : ℝ) * (M.cos off : ℚ) + ((M.sin off : ℚ) : ℝ) * (M.sin off : ℚ) ≤ 1 := by
        exact_mod_cast htr
      push_cast
      nlinarith [sq_nonneg ((sr : ℚ) : ℝ)]
    have hs1 : Real.sqrt (((sr * M.cos off : ℚ) : ℝ) ^ 2 + ((sr * M.sin off : ℚ) : ℝ) ^ 2) ≤
        ((sr : ℚ) : ℝ) := by
      calc Real.sqrt (((sr * M.cos off : ℚ) : ℝ) ^ 2 + ((sr * M.sin off : ℚ) : ℝ) ^ 2)
          ≤ Real.sqrt (((sr : ℚ) : ℝ) ^ 2) := Real.sqrt_le_sqrt hsq
        _ = ((sr : ℚ) : ℝ) := Real.sqrt_sq (by exact_mod_cast hsr0)
    have hR : ((sr : ℚ) : ℝ) + (r : ℝ) ≤ (R : ℝ) := by
      have : (sr : ℚ) + r ≤ R := by linarith
      exact_mod_cast this
    linarith

theorem processCable_disk {M : MathFns} {R : ℚ} (off : ℚ) (count : ℕ) (mode : SeedMode)
    (hdom : SqrtDom M.sqrt) (ht : TrigBound M) (st : PState) (i : ℕ)
    (h : ∀ p ∈ st.placed, InDisk R p) :
    ∀ p ∈ (processCable M R off count mode st i).placed, InDisk R p := by
  rcases processCable_cases M R off count mode st i with heq |
    ⟨r, hr, h1, h2, hemp, heq⟩ | ⟨r, p, hr, h1, h2, hpl, heq⟩
  · rw [heq]; exact h
  · rw [heq]
    intro q hq
    rcases List.mem_singleton.mp hq with rfl
    exact seed_inDisk ht h2 i
  · rw [heq]
    intro q hq
    rcases List.mem_append.mp hq with hq | hq
    · exact h q hq
    · rcases List.mem_singleton.mp hq with rfl
      obtain ⟨s, hsmem, hfit⟩ := placeOne_some hpl
      exact inDisk_of_fits hdom hfit i

theorem foldl_processCable_disk {M : MathFns} {R : ℚ} (off : ℚ) (count : ℕ) (mode : SeedMode)
    (hdom : SqrtDom M.sqrt) (ht : TrigBound M) :
    ∀ (l : List ℕ) (st : PState), (∀ p ∈ st.placed, InDisk R p) →
      ∀ p ∈ (l.foldl (processCable M R off count mode) st).placed, InDisk R p
  | [], _, h => h
  | i :: rest, st, h =>
    foldl_processCable_disk off count mode hdom ht rest _
      (processCable_disk off count mode hdom ht st i h)

theorem place_cables_disk {M : MathFns} (cables : List Cable) {R : ℚ} (off : ℚ)
    (count : ℕ) (mode : SeedMode) (hdom : SqrtDom M.sqrt) (ht : TrigBound M) :
    ∀ p ∈ (place_cables M cables R off count mode).placed, InDisk R p := by
  unfold place_cables
  exact foldl_processCable_disk off count mode hdom ht _ _
    (fun p hp => absurd hp (List.not_mem_nil p))

theorem overlapStep_cases (M : MathFns) (R : ℚ) (st : List Cable × List PlacedRec) (i : ℕ) :
    overlapStep M R st i = st ∨
    (∃ r, (st.1.getD i Cable.empty).r = some r ∧ 0 < r ∧ r ≤ R ∧
      overlapStep M R st i =
        (st.1.set i { st.1.getD i Cable.empty with
            x := some (overlapPos M R r i).1, y := some (overlapPos M R r i).2 },
         st.2 ++ [⟨i, (overlapPos M R r i).1, (overlapPos M R r i).2, r⟩])) := by
  unfold overlapStep
  cases hr : (st.1.getD i Cable.empty).r with
  | none => exact Or.inl rfl
  | some r =>
    dsimp only
    split
    · exact Or.inl rfl
    · next h1 =>
      split
      · exact Or.inl rfl
      · next h2 =>
        exact Or.inr ⟨r, rfl, lt_of_not_le h1, le_of_not_lt h2, rfl⟩

theorem overlapPos_inDisk {M : MathFns} {R r : ℚ}
    (hdom : SqrtDom M.sqrt) (ht : TrigBound M) (h1 : 0 < r) (h2 : r ≤ R) (i : ℕ) :
    InDisk R ⟨i, (overlapPos M R r i).1, (overlapPos M R r i).2, r⟩ := by
  unfold overlapPos
  split
  · unfold InDisk
    dsimp only
    push_cast
    rw [show (0 : ℝ) ^ 2 + (0 : ℝ) ^ 2 = 0 by ring, Real.sqrt_zero]
    have : (r : ℝ) ≤ (R : ℝ) := by exact_mod_cast h2
    linarith
  · unfold InDisk
    simp only [qsub_eq, qmul_eq]
    have hsq0 : (0 : ℚ) ≤ M.sqrt (i : ℚ) := (hdom (i : ℚ) (by positivity)).1
    have hc7 : (0 : ℚ) ≤ mkRat 7 10 := by decide
    set dist := min (R - r) (mkRat 7 10 * r * M.sqrt (i : ℚ)) with hdist
    have hd0 : (0 : ℚ) ≤ dist :=
      le_min (by linarith) (mul_nonneg (mul_nonneg hc7 (le_of_lt h1)) hsq0)
    have hdR : dist ≤ R - r := min_le_left _ _
    have htr := ht (mkRat 7 10 * (i : ℚ))
    set c := M.cos (mkRat 7 10 * (i : ℚ))
    set sn := M.sin (mkRat 7 10 * (i : ℚ))
    have hsq : ((dist * c : ℚ) : ℝ) ^ 2 + ((dist * sn : ℚ) : ℝ) ^ 2 ≤
        ((dist : ℚ) : ℝ) ^ 2 := by
      have htr' : ((c : ℚ) : ℝ) * (c : ℚ) + ((sn : ℚ) : ℝ) * (sn : ℚ) ≤ 1 := by
        exact_mod_cast htr
      push_cast
      nlinarith [sq_nonneg ((dist : ℚ) : ℝ)]
    have hs1 : Real.sqrt (((dist * c : ℚ) : ℝ) ^ 2 + ((dist * sn : ℚ) : ℝ) ^ 2) ≤
        ((dist : ℚ) : ℝ) := by
      calc Real.sqrt (((dist * c : ℚ) : ℝ) ^ 2 + ((dist * sn : ℚ) : ℝ) ^ 2)
          ≤ Real.sqrt (((dist : ℚ) : ℝ) ^ 2) := Real.sqrt_le_sqrt hsq
        _ = ((dist : ℚ) : ℝ) := Real.sqrt_sq (by exact_mod_cast hd0)
    have hR : ((dist : ℚ) : ℝ) + (r : ℝ) ≤ (R : ℝ) := by
      have : (dist : ℚ) + r ≤ R := by linarith
      exact_mod_cast this
    linarith

theorem foldl_overlapStep_inv {M : MathFns} {R : ℚ}
    (hdom : SqrtDom M.sqrt) (ht : TrigBound M) :
    ∀ (l : List ℕ) (st : List Cable × List PlacedRec),
      (∀ p ∈ st.2, InDisk R p ∧ GoodRec R p) →
      ∀ p ∈ (l.foldl (overlapStep M R) st).2, InDisk R p ∧ GoodRec R p
  | [], _, h => h
  | i :: rest, st, h => by
    refine foldl_overlapStep_inv hdom ht rest (overlapStep M R st i) ?_
    rcases overlapStep_cases M R st i with heq | ⟨r, hr, hr1, hr2, heq⟩
    · rw [heq]; exact h
    · rw [heq]
      intro p hp
      rcases List.mem_append.mp hp with hp | hp
      · exact h p hp
      · rcases List.mem_singleton.mp hp with rfl
        exact ⟨overlapPos_inDisk hdom ht hr1 hr2 i, hr1, hr2⟩

theorem place_cables_allow_overlap_inv {M : MathFns} (cables : List Cable) {R : ℚ}
    (hdom : SqrtDom M.sqrt) (ht : TrigBound M) :
    ∀ p ∈ (place_cables_allow_overlap M cables R).2, InDisk R p ∧ GoodRec R p := by
  unfold place_cables_allow_overlap
  exact foldl_overlapStep_inv hdom ht _ _ (fun p hp => absurd hp (List.not_mem_nil p))

theorem seed_qdisk {M : MathFns} {R off r : ℚ} {mode : SeedMode}
    (hlb : SqrtLB M.sqrt) (ht : TrigBound M) (h2 : r ≤ R) (i : ℕ) :
    QDisk M R ⟨i, (seedPos M R off r mode).1, (seedPos M R off r mode).2, r⟩ := by
  cases mode with
  | center =>
    unfold seedPos QDisk
    dsimp only
    have h0 : M.sqrt ((0 : ℚ) * 0 + 0 * 0) ≤ 0 := hlb _ 0 le_rfl (by norm_num)
    linarith
  | boundary =>
    unfold seedPos QDisk
    simp only [qsub_eq, qmul_eq]
    have hsr0 : (0 : ℚ) ≤ max 0 (R - r) := le_max_left _ _
    have hsrR : max 0 (R - r) ≤ R - r := max_le (by linarith) le_rfl
    have htr := ht off
    set sr := max 0 (R - r) with hsr
    have hb : sr * M.cos off * (sr * M.cos off) + sr * M.sin off * (sr * M.sin off) ≤
        sr * sr := by nlinarith [sq_nonneg sr]
    have := hlb (sr * M.cos off * (sr * M.cos off) + sr * M.sin off * (sr * M.sin off)) sr hsr0 hb
    linarith

theorem processCable_qdisk {M : MathFns} {R : ℚ} (off : ℚ) (count : ℕ) (mode : SeedMode)
    (hlb : SqrtLB M.sqrt) (ht : TrigBound M) (st : PState) (i : ℕ)
    (h : ∀ p ∈ st.placed, QDisk M R p) :
    ∀ p ∈ (processCable M R off count mode st i).placed, QDisk M R p := by
  rcases processCable_cases M R off count mode st i with heq |
    ⟨r, hr, h1, h2, hemp, heq⟩ | ⟨r, p, hr, h1, h2, hpl, heq⟩
  · rw [heq]; exact h
  · rw [heq]
    intro q hq
    rcases List.mem_singleton.mp hq with rfl
    exact seed_qdisk hlb ht h2 i
  · rw [heq]
    intro q hq
    rcases List.mem_append.mp hq with hq | hq
    · exact h q hq
    · rcases List.mem_singleton.mp hq with rfl
      obtain ⟨s, hsmem, hfit⟩ := placeOne_some hpl
      exact (fits_true hfit).1

theorem foldl_processCable_qdisk {M : MathFns} {R : ℚ} (off : ℚ) (count : ℕ) (mode : SeedMode)
    (hlb : SqrtLB M.sqrt) (ht : TrigBound M) :
    ∀ (l : List ℕ) (st : PState), (∀ p ∈ st.placed, QDisk M R p) →
      ∀ p ∈ (l.foldl (processCable M R off count mode) st).placed, QDisk M R p
  | [], _, h => h
  | i :: rest, st, h =>
    foldl_processCable_qdisk off count mode hlb ht rest _
      (processCable_qdisk off count mode hlb ht st i h)

theorem extentQ_foldl_le {M : MathFns} {R : ℚ} :
    ∀ (l : List PlacedRec) (acc : ℚ), acc ≤ R → (∀ p ∈ l, QDisk M R p) →
      l.foldl (fun acc o => max acc (qadd (M.sqrt (qadd (qmul o.x o.x) (qmul o.y o.y))) o.r))
        acc ≤ R
  | [], acc, hacc, _ => hacc
  | p :: rest, acc, hacc, h => by
    rw [List.foldl_cons]
    refine extentQ_foldl_le rest _ ?_ (fun q hq => h q (List.mem_cons_of_mem p hq))
    have hp := h p (List.mem_cons_self p rest)
    unfold QDisk at hp
    simp only [qadd_eq, qmul_eq]
    exact max_le hacc hp

theorem extentQ_le_of_qdisk {M : MathFns} {R : ℚ} (placed : List PlacedRec)
    (hR : 0 ≤ R) (h : ∀ p ∈ placed, QDisk M R p) : extentQ M placed ≤ R :=
  extentQ_foldl_le placed 0 hR h

theorem packFits_le {M : MathFns} {R : ℚ} {placed : List (ℚ × ℚ)} {x y r s : ℚ}
    (h : packFits M R placed x y r s = true) :
    M.sqrt (x * x + y * y) + r ≤ R := by
  unfold packFits at h
  simp only [qadd_eq, qmul_eq] at h
  split at h
  · cases h
  · next hc => push_neg at hc; exact hc

theorem packPick_some {M : MathFns} {R : ℚ} {placed : List (ℚ × ℚ)} {r s : ℚ} :
    ∀ (cands : List (ℚ × ℚ)) (acc : Option ((ℚ × ℚ) × ℚ)) {p : ℚ × ℚ} {sc : ℚ},
      (∀ q sq, acc = some (q, sq) → packFits M R placed q.1 q.2 r s = true) →
      packPick M R placed r s cands acc = some (p, sc) →
      packFits M R placed p.1 p.2 r s = true
  | [], acc, p, sc, hacc, h => hacc p sc h
  | (x, y) :: rest, acc, p, sc, hacc, h => by
    rw [packPick] at h
    split at h
    · next hfit =>
      match hacc2 : acc with
      | none =>
        subst hacc2
        exact packPick_some rest _ (fun q sq hq => by cases hq; exact hfit) h
      | some (bp, bs) =>
        subst hacc2
        dsimp only at h
        split at h
        · exact packPick_some rest _ (fun q sq hq => by cases hq; exact hfit) h
        · exact packPick_some rest _ (fun q sq hq => by cases hq; exact hacc bp bs rfl) h
    · exact packPick_some rest _ hacc h

theorem packRing_some {M : MathFns} {R : ℚ} {placed : List (ℚ × ℚ)}
    {r s : ℚ} {angles : List ℚ} :
    ∀ (rings : List ℕ) {p : ℚ × ℚ} {sc : ℚ},
      packRing M R placed r s angles rings = some (p, sc) →
      packFits M R placed p.1 p.2 r s = true
  | [], p, sc, h => by cases h
  | ring :: rest, p, sc, h => by
    rw [packRing] at h
    split at h
    · cases h
    · split at h
      · next b heq =>
        cases h
        exact packPick_some _ none (fun q sq hq => by cases hq) heq
      · exact packRing_some rest h

theorem packTry_some {M : MathFns} {R : ℚ} {placed : List (ℚ × ℚ)} {r s : ℚ} {p : ℚ × ℚ}
    (h : packTry M R placed r s = some p) :
    packFits M R placed p.1 p.2 r s = true := by
  rw [packTry] at h
  split at h
  · next b heq =>
    cases h
    exact packPick_some _ none (fun q sq hq => by cases hq) heq
  · simp only [Option.map_eq_some'] at h
    obtain ⟨⟨q, sq⟩, hq, rfl⟩ := h
    exact packRing_some _ hq

theorem inDisk2_of_qle {M : MathFns} {x y r R : ℚ} (hdom : SqrtDom M.sqrt)
    (h : M.sqrt (x * x + y * y) + r ≤ R) : InDisk2 R r (x, y) := by
  have hv : (0 : ℚ) ≤ x * x + y * y := by nlinarith [sq_nonneg x, sq_nonneg y]
  have hle := sqrt_dom_le hdom hv
  unfold InDisk2
  dsimp only
  have hxy : ((x : ℝ)) ^ 2 + ((y : ℝ)) ^ 2 = (((x * x + y * y : ℚ)) : ℝ) := by
    push_cast
    ring
  rw [hxy]
  have h' : ((M.sqrt (x * x + y * y) : ℚ) : ℝ) + (r : ℝ) ≤ (R : ℝ) := by exact_mod_cast h
  linarith

theorem packStepOnce_inDisk2 {M : MathFns} {R : ℚ} {placed : List (ℚ × ℚ)} {r : ℚ}
    {p : ℚ × ℚ} (hdom : SqrtDom M.sqrt) (h : packStepOnce M R placed r = some p) :
    InDisk2 R r p := by
  rw [packStepOnce] at h
  obtain ⟨s, _, htry⟩ := List.exists_of_findSome?_eq_some h
  have := packFits_le (packTry_some htry)
  obtain ⟨p1, p2⟩ := p
  exact inDisk2_of_qle hdom this

theorem packLoop_inDisk2 {M : MathFns} {R r : ℚ} {n : ℕ} (hdom : SqrtDom M.sqrt) :
    ∀ (fuel : ℕ) (placed : List (ℚ × ℚ)), (∀ p ∈ placed, InDisk2 R r p) →
      ∀ p ∈ packLoop M R r n fuel placed, InDisk2 R r p
  | 0, _, h => h
  | fuel + 1, placed, h => by
    rw [packLoop]
    split
    · cases hstep : packStepOnce M R placed r with
      | none => exact h
      | some q =>
        refine packLoop_inDisk2 hdom fuel _ ?_
        intro p hp
        rcases List.mem_append.mp hp with hp | hp
        · exact h p hp
        · rcases List.mem_singleton.mp hp with rfl
          exact packStepOnce_inDisk2 hdom hstep
    · exact h

theorem pack_circles_inDisk2 {M : MathFns} (n : ℕ) {r R : ℚ} (hdom : SqrtDom M.sqrt) :
    ∀ p ∈ pack_circles_in_circle M n r R, InDisk2 R r p := by
  unfold pack_circles_in_circle
  split
  · intro p hp; cases hp
  · split
    · intro p hp; cases hp
    · next h1 h2 =>
      have hrR : r ≤ R := le_of_not_lt h2
      have horigin : InDisk2 R r ((0 : ℚ), (0 : ℚ)) := by
        unfold InDisk2
        dsimp only
        push_cast
        rw [show (0 : ℝ) ^ 2 + (0 : ℝ) ^ 2 = 0 by ring, Real.sqrt_zero]
        have : (r : ℝ) ≤ (R : ℝ) := by exact_mod_cast hrR
        linarith
      split
      · intro p hp
        rcases List.mem_singleton.mp hp with rfl
        exact horigin
      · refine packLoop_inDisk2 hdom n _ ?_
        intro p hp
        rcases List.mem_singleton.mp hp with rfl
        exact horigin

theorem inDisk2_mono {R rr rr' : ℚ} {p : ℚ × ℚ} (hle : rr' ≤ rr)
    (h : InDisk2 R rr p) : InDisk2 R rr' p := by
  unfold InDisk2 at h ⊢
  have : (rr' : ℝ) ≤ (rr : ℝ) := by exact_mod_cast hle
  linarith

theorem shrinkLoop_inDisk2 {M : MathFns} {n : ℕ} {Rin : ℚ} (hdom : SqrtDom M.sqrt) :
    ∀ (fuel : ℕ) (ru : ℚ), 0 < ru →
      ∀ p ∈ (shrinkLoop M n Rin fuel ru).2,
        InDisk2 Rin (shrinkLoop M n Rin fuel ru).1 p
  | 0, ru, _ => by intro p hp; cases hp
  | fuel + 1, ru, hru => by
    rw [shrinkLoop]
    split
    · exact fun p hp => pack_circles_inDisk2 n hdom p hp
    · split
      · intro p hp
        dsimp only at hp ⊢
        refine inDisk2_mono ?_ (pack_circles_inDisk2 n hdom p hp)
        rw [qmul_eq]
        have h910 : mkRat 9 10 ≤ 1 := by decide
        have hmul := mul_le_mul_of_nonneg_left h910 (le_of_lt hru)
        simpa using hmul
      · exact shrinkLoop_inDisk2 hdom fuel _
          (by rw [qmul_eq]; exact mul_pos hru (by decide : (0 : ℚ) < mkRat 9 10))

theorem condRu0_pos {M : MathFns} {nCond : ℕ} {rCond : Option ℚ} {r : ℚ}
    (hRin : qsub r (mkRat 3 5) > 0) : 0 < condRu0 M nCond rCond r := by
  have hden : (0 : ℚ) < max (qmul (mkRat 8 5) (M.sqrt (nCond : ℚ))) (mkRat 8 5) :=
    lt_of_lt_of_le (by decide : (0 : ℚ) < mkRat 8 5) (le_max_right _ _)
  unfold condRu0
  cases rCond with
  | none =>
    rw [qdiv_eq]
    exact div_pos hRin hden
  | some rc =>
    dsimp only
    split
    · rw [qdiv_eq]
      exact div_pos hRin hden
    · next hrc => exact lt_min (lt_of_not_le hrc) hRin

theorem conductorLayout_inDisk2 {M : MathFns} {nCond : ℕ} {rCond : Option ℚ} {r ru : ℚ}
    {ps : List (ℚ × ℚ)} (hdom : SqrtDom M.sqrt)
    (h : conductorLayout M nCond rCond r = some (ru, ps)) :
    ∀ p ∈ ps, InDisk2 (qsub r (mkRat 3 5)) ru p := by
  unfold conductorLayout at h
  split at h
  · cases h
  · split at h
    · next hRin =>
      cases h
      intro p hp
      exact shrinkLoop_inDisk2 hdom 15 _ (condRu0_pos hRin) p (List.take_subset _ _ hp)
    · cases h

theorem msStep_eq (M : MathFns) (R : ℚ) (st : List Cable) (bp : List PlacedRec)
    (bu : ℕ) (be : Option ℚ) (cfg : SeedMode × ℚ) :
    msStep M R ⟨st, bp, bu, be⟩ cfg =
      ⟨(place_cables M st R cfg.2 48 cfg.1).store,
       (selStep M ⟨bp, bu, be⟩ (place_cables M st R cfg.2 48 cfg.1)).placed,
       (selStep M ⟨bp, bu, be⟩ (place_cables M st R cfg.2 48 cfg.1)).unplaced,
       (selStep M ⟨bp, bu, be⟩ (place_cables M st R cfg.2 48 cfg.1)).extent⟩ := by
  unfold msStep selStep
  dsimp only
  split
  · cases be with
    | none => rfl
    | some b =>
      dsimp only
      split <;> rfl
  · split <;> rfl

theorem foldl_msStep_eq (M : MathFns) (R : ℚ) :
    ∀ (cfgs : List (SeedMode × ℚ)) (st : List Cable) (bp : List PlacedRec)
      (bu : ℕ) (be : Option ℚ),
      cfgs.foldl (msStep M R) ⟨st, bp, bu, be⟩ =
        ⟨lastStore (msAttempts M R cfgs st) st,
         ((msAttempts M R cfgs st).foldl (selStep M) ⟨bp, bu, be⟩).placed,
         ((msAttempts M R cfgs st).foldl (selStep M) ⟨bp, bu, be⟩).unplaced,
         ((msAttempts M R cfgs st).foldl (selStep M) ⟨bp, bu, be⟩).extent⟩
  | [], st, bp, bu, be => rfl
  | cfg :: rest, st, bp, bu, be => by
    rw [List.foldl_cons, msStep_eq, msAttempts]
    rw [foldl_msStep_eq M R rest, List.foldl_cons]
    rfl

theorem selStep_facts (M : MathFns) (s : Sel) (a : PState)
    (hinv : s.extent ≠ none → s.unplaced = 0) :
    ((selStep M s a).extent ≠ none → (selStep M s a).unplaced = 0) ∧
    (selStep M s a).unplaced ≤ s.unplaced ∧ (selStep M s a).unplaced ≤ a.unplaced := by
  unfold selStep
  split
  · next hu =>
    cases hbe : s.extent with
    | none =>
      dsimp only
      exact ⟨fun _ => hu, by simp [hu], by simp⟩
    | some be =>
      have hs0 := hinv (by rw [hbe]; exact Option.some_ne_none be)
      dsimp only
      split
      · exact ⟨fun _ => hu, by simp [hu], by simp⟩
      · exact ⟨fun _ => hs0, le_rfl, by simp [hs0]⟩
  · next hu =>
    split
    · next hlt =>
      dsimp only
      refine ⟨fun hne => ?_, le_of_lt hlt, le_rfl⟩
      exact absurd (hinv hne ▸ hlt) (by omega)
    · next hlt =>
      dsimp only
      exact ⟨hinv, le_rfl, by omega⟩

theorem selFold_facts (M : MathFns) :
    ∀ (atts : List PState) (s : Sel), (s.extent ≠ none → s.unplaced = 0) →
      (((atts.foldl (selStep M) s).extent ≠ none → (atts.foldl (selStep M) s).unplaced = 0) ∧
       (atts.foldl (selStep M) s).unplaced ≤ s.unplaced ∧
       ∀ a ∈ atts, (atts.foldl (selStep M) s).unplaced ≤ a.unplaced)
  | [], s, hinv => ⟨hinv, le_rfl, fun a ha => absurd ha (List.not_mem_nil a)⟩
  | a :: rest, s, hinv => by
    obtain ⟨hinv1, hle1, hlea⟩ := selStep_facts M s a hinv
    obtain ⟨hinv2, hle2, hmem⟩ := selFold_facts M rest (selStep M s a) hinv1
    rw [List.foldl_cons]
    refine ⟨hinv2, le_trans hle2 hle1, ?_⟩
    intro b hb
    rcases List.mem_cons.mp hb with rfl | hb
    · exact le_trans hle2 hlea
    · exact hmem b hb

theorem tangency_implies_no_ring (M : MathFns) (R off : ℚ) (count : ℕ)
    (placed : List PlacedRec) (r s : ℚ) (b : (ℚ × ℚ) × (ℚ × ℚ × ℚ))
    (h : tangencyBest M R off count placed r s = some b) :
    bestAtSpacing M R off count placed r s = some b.1 := by
  unfold bestAtSpacing
  rw [h]

theorem placeOne_unfold (M : MathFns) (R off : ℚ) (count : ℕ)
    (placed : List PlacedRec) (r : ℚ) :
    placeOne M R off count placed r =
      (bestAtSpacing M R off count placed r (mkRat 1 2)).orElse fun _ =>
        (bestAtSpacing M R off count placed r (mkRat 1 5)).orElse fun _ =>
          bestAtSpacing M R off count placed r 0 := by
  unfold placeOne spacingOptions
  cases h1 : bestAtSpacing M R off count placed r (mkRat 1 2) with
  | some p => simp [List.findSome?, h1, Option.orElse]
  | none =>
    cases h2 : bestAtSpacing M R off count placed r (mkRat 1 5) with
    | some p => simp [List.findSome?, h1, h2, Option.orElse]
    | none =>
      cases h3 : bestAtSpacing M R off count placed r 0 with
      | some p => simp [List.findSome?, h1, h2, h3, Option.orElse]
      | none => simp [List.findSome?, h1, h2, h3, Option.orElse]

theorem sepOK_symm : Symmetric SepOK := by
  intro u v h
  unfold SepOK at h ⊢
  nlinarith [h]

theorem foldl_overlapStep_good {M : MathFns} {R : ℚ} :
    ∀ (l : List ℕ) (st : List Cable × List PlacedRec),
      (∀ p ∈ st.2, GoodRec R p) →
      ∀ p ∈ (l.foldl (overlapStep M R) st).2, GoodRec R p
  | [], _, h => h
  | i :: rest, st, h => by
    refine foldl_overlapStep_good rest (overlapStep M R st i) ?_
    rcases overlapStep_cases M R st i with heq | ⟨r, hr, hr1, hr2, heq⟩
    · rw [heq]; exact h
    · rw [heq]
      intro p hp
      rcases List.mem_append.mp hp with hp | hp
      · exact h p hp
      · rcases List.mem_singleton.mp hp with rfl
        exact ⟨hr1, hr2⟩

theorem place_cables_allow_overlap_good {M : MathFns} (cables : List Cable) {R : ℚ} :
    ∀ p ∈ (place_cables_allow_overlap M cables R).2, GoodRec R p := by
  unfold place_cables_allow_overlap
  exact foldl_overlapStep_good _ _ (fun p hp => absurd hp (List.not_mem_nil p))

theorem foldl_overlapStep_store {M : MathFns} {R : ℚ} :
    ∀ (l : List ℕ) (st : List Cable × List PlacedRec),
      StoreShape st.1 (l.foldl (overlapStep M R) st).1
  | [], _ => storeShape_rfl _
  | i :: rest, st => by
    rw [List.foldl_cons]
    have hrest := foldl_overlapStep_store (M := M) (R := R) rest (overlapStep M R st i)
    refine storeShape_trans ?_ hrest
    rcases overlapStep_cases M R st i with heq | ⟨r, hr, hr1, hr2, heq⟩
    · rw [heq]; exact storeShape_rfl _
    · rw [heq]; exact storeShape_set_xy _ _ _ _

theorem msStep_store (M : MathFns) (R : ℚ) (s : MSState) (cfg : SeedMode × ℚ) :
    (msStep M R s cfg).store = (place_cables M s.store R cfg.2 48 cfg.1).store := by
  have h := msStep_eq M R s.store s.bestPlaced s.bestUnplaced s.bestExtent cfg
  calc (msStep M R s cfg).store
      = (msStep M R ⟨s.store, s.bestPlaced, s.bestUnplaced, s.bestExtent⟩ cfg).store := rfl
    _ = (place_cables M s.store R cfg.2 48 cfg.1).store := by rw [h]

theorem place_cables_store (M : MathFns) (cables : List Cable) (R off : ℚ)
    (count : ℕ) (mode : SeedMode) :
    StoreShape cables (place_cables M cables R off count mode).store := by
  unfold place_cables
  exact foldl_processCable_store M R off count mode _ ⟨cables, [], 0⟩

theorem foldl_msStep_storeShape (M : MathFns) (R : ℚ) :
    ∀ (cfgs : List (SeedMode × ℚ)) (ms : MSState) (w : List Cable),
      StoreShape w ms.store → StoreShape w (cfgs.foldl (msStep M R) ms).store
  | [], _, _, h => h
  | cfg :: rest, ms, w, h => by
    rw [List.foldl_cons]
    refine foldl_msStep_storeShape M R rest _ w ?_
    rw [msStep_store]
    exact storeShape_trans h (place_cables_store M ms.store R cfg.2 48 cfg.1)

theorem multiSeed_store (M : MathFns) (cables : List Cable) (R : ℚ) :
    StoreShape cables (multiSeed M cables R).store := by
  by_cases h0 : (place_cables M cables R 0 36 SeedMode.center).unplaced = 0
  · rw [multiSeed, if_pos h0]
    apply place_cables_store
  · rw [multiSeed, if_neg h0]
    dsimp only
    apply foldl_msStep_storeShape
    dsimp only
    apply place_cables_store

theorem sepOK_real {a b : PlacedRec} (h : SepOK a b) :
    (a.r : ℝ) + (b.r : ℝ) ≤
      Real.sqrt (((a.x : ℝ) - (b.x : ℝ)) ^ 2 + ((a.y : ℝ) - (b.y : ℝ)) ^ 2) := by
  unfold SepOK at h
  have hR : ((a.r : ℝ) + (b.r : ℝ)) * ((a.r : ℝ) + (b.r : ℝ)) ≤
      ((a.x : ℝ) - (b.x : ℝ)) * ((a.x : ℝ) - (b.x : ℝ)) +
        ((a.y : ℝ) - (b.y : ℝ)) * ((a.y : ℝ) - (b.y : ℝ)) := by
    exact_mod_cast h
  rcases le_or_lt ((a.r : ℝ) + (b.r : ℝ)) 0 with h0 | h0
  · exact le_trans h0 (Real.sqrt_nonneg _)
  · have hsq : ((a.r : ℝ) + (b.r : ℝ)) ^ 2 ≤
        ((a.x : ℝ) - (b.x : ℝ)) ^ 2 + ((a.y : ℝ) - (b.y : ℝ)) ^ 2 := by
      rw [pow_two, pow_two, pow_two]; exact hR
    calc (a.r : ℝ) + (b.r : ℝ)
        = Real.sqrt (((a.r : ℝ) + (b.r : ℝ)) ^ 2) := (Real.sqrt_sq h0.le).symm
      _ ≤ _ := Real.sqrt_le_sqrt hsq

theorem place_cables_qdisk {M : MathFns} (cables : List Cable) {R : ℚ} (off : ℚ)
    (count : ℕ) (mode : SeedMode) (hlb : SqrtLB M.sqrt) (ht : TrigBound M) :
    ∀ p ∈ (place_cables M cables R off count mode).placed, QDisk M R p := by
  unfold place_cables
  exact foldl_processCable_qdisk off count mode hlb ht _ _
    (fun p hp => absurd hp (List.not_mem_nil p))

theorem place_cables_allow_overlap_store (M : MathFns) (cables : List Cable) (R : ℚ) :
    StoreShape cables (place_cables_allow_overlap M cables R).1 := by
  unfold place_cables_allow_overlap
  exact foldl_overlapStep_store _ (cables, [])

theorem place_cables_eq (M : MathFns) (cables : List Cable) (R off : ℚ)
    (count : ℕ) (mode : SeedMode) :
    place_cables M cables R off count mode =
      (sortDescIdx (sortKey cables) (List.range cables.length)).foldl
        (processCable M R off count mode) ⟨cables, [], 0⟩ := rfl

/-- Claim C1: in non-overlap mode any two distinct placed items are
separated, `distance(center_i, center_j) ≥ r_i + r_j` (so the claim holds
with `ε = 0`): every accepted candidate is checked for separation against
all previously placed items. -/
theorem c1_no_overlap (M : MathFns) (cables : List Cable) (R off : ℚ)
    (count : ℕ) (mode : SeedMode) :
    (place_cables M cables R off count mode).placed.Pairwise (fun a b =>
      (a.r : ℝ) + (b.r : ℝ) ≤
        Real.sqrt (((a.x : ℝ) - (b.x : ℝ)) ^ 2 + ((a.y : ℝ) - (b.y : ℝ)) ^ 2)) :=
  ((place_cables_ok M cables R off count mode).2).imp (fun hab => sepOK_real hab)

/-- Claim C2: with a square root that over-approximates (`SqrtDom`) and
direction samples inside the unit disk (`TrigBound`), every placed item in
both modes satisfies `distance(center, origin) + r ≤ R` (the claim with
`ε = 0`), including a boundary-seeded first item. -/
theorem c2_containment (M : MathFns) (cables : List Cable) (R off : ℚ)
    (count : ℕ) (mode : SeedMode) (hdom : SqrtDom M.sqrt) (ht : TrigBound M) :
    (∀ p ∈ (place_cables M cables R off count mode).placed, InDisk R p) ∧
    ∀ p ∈ (place_cables_allow_overlap M cables R).2, InDisk R p :=
  ⟨place_cables_disk cables off count mode hdom ht,
   fun p hp => (place_cables_allow_overlap_inv cables hdom ht p hp).1⟩

/-- Concrete instance of `c2_containment`: one item of radius `3` in a
bounding circle of radius `10` under the over-approximating bundle `mone`. -/
theorem c2_witness : SqrtDom mone.sqrt ∧ TrigBound mone ∧
    InDisk 10 ⟨0, 0, 0, 3⟩ := by
  have hd : SqrtDom mone.sqrt := by
    intro v hv
    constructor
    · show (0 : ℚ) ≤ qadd v 1
      rw [qadd_eq]; linarith
    · show v ≤ qadd v 1 * qadd v 1
      rw [qadd_eq]; nlinarith [sq_nonneg v]
  have ht : TrigBound mone := by
    intro t
    show (1 : ℚ) * 1 + 0 * 0 ≤ 1
    norm_num
  exact ⟨hd, ht,
    (c2_containment mone [⟨some 3, none, none, none, none⟩] 10 0 36 SeedMode.center
      hd ht).1 ⟨0, 0, 0, 3⟩ (by decide)⟩

/-- Claim C3, counterexample: with `R = 5` and one item of radius `6` the
greedy engine reports the item in the `unplaced` count (`unplaced = 1`, not
a separate "dropped" count, which would require `unplaced = 0`), and the
overlap placer skips it silently, reporting it in no count at all. -/
theorem c3_counterexample :
    (place_cables mzero [⟨some 6, none, none, none, none⟩] 5 0 36 SeedMode.center).placed
        = [] ∧
    (place_cables mzero [⟨some 6, none, none, none, none⟩] 5 0 36 SeedMode.center).unplaced
        = 1 ∧
    (place_cables_allow_overlap mzero [⟨some 6, none, none, none, none⟩] 5).2 = [] := by
  decide

/-- Claim C3, amended: an item with radius `≤ 0` or `> R` is never placed
in either mode (every placed record has `0 < r ≤ R`), and the run never
aborts — in the greedy engine the item lands in the `unplaced` count, in
the overlap placer it is skipped silently. -/
theorem c3_amended (M : MathFns) (cables : List Cable) (R off : ℚ)
    (count : ℕ) (mode : SeedMode) :
    (∀ p ∈ (place_cables M cables R off count mode).placed, 0 < p.r ∧ p.r ≤ R) ∧
    ∀ p ∈ (place_cables_allow_overlap M cables R).2, 0 < p.r ∧ p.r ≤ R :=
  ⟨(place_cables_ok M cables R off count mode).1,
   fun p hp => place_cables_allow_overlap_good cables p hp⟩

/-- Concrete instance of `c3_amended` at its placed seed record. -/
theorem c3_amended_witness :
    0 < (⟨0, 0, 0, 3⟩ : PlacedRec).r ∧ (⟨0, 0, 0, 3⟩ : PlacedRec).r ≤ 10 :=
  (c3_amended mzero [⟨some 3, none, none, none, none⟩] 10 0 36 SeedMode.center).1
    ⟨0, 0, 0, 3⟩ (by decide)

set_option maxRecDepth 10000 in
set_option maxHeartbeats 4000000 in
/-- Claim C4, counterexample: the retry attempts run on the shared, mutated
item collection, so the coordinates left on the caller's items are those of
the final attempt, not those of the selected best attempt — under the
bundle `mx4` with two radius-`4` items and `R = 10`, some selected placed
record disagrees with the coordinates stored on its item. -/
theorem c4_counterexample : ¬ msCoordsFaithful mx4 cs4 10 := by decide

/-- Claim C4, amended: when the default attempt leaves items unplaced, the
multi-seed block returns the item list as left by the final retry attempt
(each attempt running on its predecessor's mutated list), together with the
placed list and unplaced count selected by the bookkeeping fold — which
never exceeds the default attempt's unplaced count nor any retry attempt's
unplaced count. -/
theorem c4_amended (M : MathFns) (cables : List Cable) (R : ℚ)
    (h : (place_cables M cables R 0 36 SeedMode.center).unplaced ≠ 0) :
    multiSeed M cables R =
      ⟨lastStore
         (msAttempts M R (msConfigs M) (place_cables M cables R 0 36 SeedMode.center).store)
         (place_cables M cables R 0 36 SeedMode.center).store,
       ((msAttempts M R (msConfigs M)
           (place_cables M cables R 0 36 SeedMode.center).store).foldl (selStep M)
         ⟨(place_cables M cables R 0 36 SeedMode.center).placed,
          (place_cables M cables R 0 36 SeedMode.center).unplaced, none⟩).placed,
       ((msAttempts M R (msConfigs M)
           (place_cables M cables R 0 36 SeedMode.center).store).foldl (selStep M)
         ⟨(place_cables M cables R 0 36 SeedMode.center).placed,
          (place_cables M cables R 0 36 SeedMode.center).unplaced, none⟩).unplaced⟩ ∧
    (multiSeed M cables R).unplaced ≤
      (place_cables M cables R 0 36 SeedMode.center).unplaced ∧
    ∀ a ∈ msAttempts M R (msConfigs M) (place_cables M cables R 0 36 SeedMode.center).store,
      (multiSeed M cables R).unplaced ≤ a.unplaced := by
  have hms : multiSeed M cables R =
      ⟨lastStore
         (msAttempts M R (msConfigs M) (place_cables M cables R 0 36 SeedMode.center).store)
         (place_cables M cables R 0 36 SeedMode.center).store,
       ((msAttempts M R (msConfigs M)
           (place_cables M cables R 0 36 SeedMode.center).store).foldl (selStep M)
         ⟨(place_cables M cables R 0 36 SeedMode.center).placed,
          (place_cables M cables R 0 36 SeedMode.center).unplaced, none⟩).placed,
       ((msAttempts M R (msConfigs M)
           (place_cables M cables R 0 36 SeedMode.center).store).foldl (selStep M)
         ⟨(place_cables M cables R 0 36 SeedMode.center).placed,
          (place_cables M cables R 0 36 SeedMode.center).unplaced, none⟩).unplaced⟩ := by
    rw [multiSeed, if_neg h, foldl_msStep_eq]
  obtain ⟨hsel1, hsel2, hsel3⟩ := selFold_facts M
    (msAttempts M R (msConfigs M) (place_cables M cables R 0 36 SeedMode.center).store)
    ⟨(place_cables M cables R 0 36 SeedMode.center).placed,
     (place_cables M cables R 0 36 SeedMode.center).unplaced, none⟩
    (fun hne => absurd rfl hne)
  refine ⟨hms, ?_, ?_⟩
  · rw [hms]
    dsimp only at hsel2 ⊢
    exact hsel2
  · intro a ha
    rw [hms]
    dsimp only
    exact hsel3 a ha

/-- Concrete instance of `c4_amended`: one oversize item (`r = 20`,
`R = 10`) makes the default attempt fail; the selected unplaced count never
exceeds the default attempt's. -/
theorem c4_amended_witness :
    (place_cables mzero [⟨some 20, none, none, none, none⟩] 10 0 36
        SeedMode.center).unplaced ≠ 0 ∧
    (multiSeed mzero [⟨some 20, none, none, none, none⟩] 10).unplaced ≤
      (place_cables mzero [⟨some 20, none, none, none, none⟩] 10 0 36
        SeedMode.center).unplaced :=
  ⟨by decide,
   (c4_amended mzero [⟨some 20, none, none, none, none⟩] 10 (by decide)).2.1⟩

/-- Claim C5: the placement engine is deterministic — equal inputs and
configuration give equal results for the greedy engine, the overlap placer
and the multi-seed block (the embedding of the engine is a pure function
and the source uses no randomness). -/
theorem c5_determinism (M M2 : MathFns) (cables cables2 : List Cable)
    (R R2 off off2 : ℚ) (count count2 : ℕ) (mode mode2 : SeedMode)
    (hM : M = M2) (hc : cables = cables2) (hR : R = R2) (ho : off = off2)
    (hn : count = count2) (hm : mode = mode2) :
    place_cables M cables R off count mode =
      place_cables M2 cables2 R2 off2 count2 mode2 ∧
    place_cables_allow_overlap M cables R =
      place_cables_allow_overlap M2 cables2 R2 ∧
    multiSeed M cables R = multiSeed M2 cables2 R2 := by
  subst hM hc hR ho hn hm
  exact ⟨rfl, rfl, rfl⟩

/-- Concrete instance of `c5_determinism`. -/
theorem c5_witness :
    place_cables mzero [⟨some 3, none, none, none, none⟩] 10 0 36 SeedMode.center =
      place_cables mzero [⟨some 3, none, none, none, none⟩] 10 0 36 SeedMode.center ∧
    place_cables_allow_overlap mzero [⟨some 3, none, none, none, none⟩] 10 =
      place_cables_allow_overlap mzero [⟨some 3, none, none, none, none⟩] 10 ∧
    multiSeed mzero [⟨some 3, none, none, none, none⟩] 10 =
      multiSeed mzero [⟨some 3, none, none, none, none⟩] 10 :=
  c5_determinism mzero mzero [⟨some 3, none, none, none, none⟩]
    [⟨some 3, none, none, none, none⟩] 10 10 0 0 36 36
    SeedMode.center SeedMode.center rfl rfl rfl rfl rfl rfl

/-- Claim C6, counterexample: the code tries the ring fallback inside each
spacing pass (tangency then ring per tolerance), not after the whole
tolerance sequence is exhausted over tangency candidates as the claim says.
Under the bundle `mx6` with two items already placed, the per-item search
returns the tolerance-`0.5` ring point `(-209/25, 0)` while the claimed
order would return the tolerance-`0.2` tangency point `(-247/25, 0)`; the
state is reached by the engine on the radius `3, 3, 2` items with
`R = 12`. -/
theorem c6_counterexample :
    placeOne mx6 12 0 36 [⟨0, 0, 0, 3⟩, ⟨1, 0, mkRat 13 2, 3⟩] 2 =
      some (mkRat (-209) 25, 0) ∧
    placeOneSpecOrder mx6 12 0 36 [⟨0, 0, 0, 3⟩, ⟨1, 0, mkRat 13 2, 3⟩] 2 =
      some (mkRat (-247) 25, 0) ∧
    placeOne mx6 12 0 36 [⟨0, 0, 0, 3⟩, ⟨1, 0, mkRat 13 2, 3⟩] 2 ≠
      placeOneSpecOrder mx6 12 0 36 [⟨0, 0, 0, 3⟩, ⟨1, 0, mkRat 13 2, 3⟩] 2 ∧
    (place_cables mx6 cs6 12 0 36 SeedMode.center).placed =
      [⟨0, 0, 0, 3⟩, ⟨1, 0, mkRat 13 2, 3⟩, ⟨2, mkRat (-209) 25, 0, 2⟩] := by
  decide

/-- Claim C6, amended: the per-item search walks the spacing tolerances
`0.5, 0.2, 0.0` in order and takes the first pass that yields a point,
where each pass tries tangency candidates first and its own ring fallback
second (the ring fallback of a pass is reached only when that pass has no
feasible tangency candidate); only when every pass fails is the item
recorded unplaced, and the loop continues with the remaining items. -/
theorem c6_amended (M : MathFns) (R off : ℚ) (count : ℕ) (mode : SeedMode)
    (placed : List PlacedRec) (r : ℚ) :
    (placeOne M R off count placed r =
      (bestAtSpacing M R off count placed r (mkRat 1 2)).orElse fun _ =>
        (bestAtSpacing M R off count placed r (mkRat 1 5)).orElse fun _ =>
          bestAtSpacing M R off count placed r 0) ∧
    (∀ (s : ℚ) (b : (ℚ × ℚ) × (ℚ × ℚ × ℚ)),
      tangencyBest M R off count placed r s = some b →
      bestAtSpacing M R off count placed r s = some b.1) ∧
    ∀ (st : PState) (i : ℕ),
      (st.store.getD i Cable.empty).r = some r → 0 < r → r ≤ R →
      st.placed.isEmpty = false → placeOne M R off count st.placed r = none →
      processCable M R off count mode st i = { st with unplaced := st.unplaced + 1 } := by
  refine ⟨placeOne_unfold M R off count placed r, ?_, ?_⟩
  · intro s b hb
    exact tangency_implies_no_ring M R off count placed r s b hb
  · intro st i hri h0 hR1 hemp hpl
    rcases processCable_cases M R off count mode st i with heq |
      ⟨r2, hr2, _, _, hplEmp, _⟩ | ⟨r2, p, hr2, _, _, hpl2, _⟩
    · exact heq
    · rw [hplEmp] at hemp; simp at hemp
    · rw [hri] at hr2
      injection hr2 with hrr
      rw [← hrr] at hpl2
      rw [hpl] at hpl2
      cases hpl2

/-- Concrete instance of the unplaced branch of `c6_amended`: under the
bundle `mbig` every containment check fails, the search returns `none` and
the item is recorded unplaced while the state is otherwise untouched. -/
theorem c6_amended_witness :
    placeOne mbig 3 0 36 [⟨0, 0, 0, 3⟩] 3 = none ∧
    processCable mbig 3 0 36 SeedMode.center
        ⟨[⟨some 3, none, none, none, none⟩, ⟨some 3, none, none, none, none⟩],
         [⟨0, 0, 0, 3⟩], 0⟩ 1 =
      ⟨[⟨some 3, none, none, none, none⟩, ⟨some 3, none, none, none, none⟩],
       [⟨0, 0, 0, 3⟩], 1⟩ :=
  ⟨by decide,
   (c6_amended mbig 3 0 36 SeedMode.center [⟨0, 0, 0, 3⟩] 3).2.2
     ⟨[⟨some 3, none, none, none, none⟩, ⟨some 3, none, none, none, none⟩],
      [⟨0, 0, 0, 3⟩], 0⟩ 1 (by decide) (by decide) (by decide) (by decide) (by decide)⟩

/-- Claim C7: with a square root that over-approximates (`SqrtDom`), every
nested position produced by the conductor layout block satisfies
`hypot(dx, dy) + r_nested ≤ parent_r - 0.6` (inner margin `0.6`), for all
shrink-retry attempts including a partial final result. -/
theorem c7_nested_containment (M : MathFns) (nCond : ℕ) (rCond : Option ℚ)
    (r ru : ℚ) (ps : List (ℚ × ℚ)) (hdom : SqrtDom M.sqrt)
    (h : conductorLayout M nCond rCond r = some (ru, ps)) :
    ∀ p ∈ ps,
      Real.sqrt ((p.1 : ℝ) ^ 2 + (p.2 : ℝ) ^ 2) + (ru : ℝ) ≤ (r : ℝ) - 3 / 5 := by
  intro p hp
  have h2 := conductorLayout_inDisk2 hdom h p hp
  unfold InDisk2 at h2
  have hcast : ((qsub r (mkRat 3 5) : ℚ) : ℝ) = (r : ℝ) - 3 / 5 := by
    rw [qsub_eq]
    have hm : (mkRat 3 5 : ℚ) = 3 / 5 := by
      rw [Rat.mkRat_eq_div]; norm_num
    rw [hm]
    push_cast
    ring
  rw [hcast] at h2
  exact h2

/-- Concrete instance of `c7_nested_containment`: one conductor of radius
`1` nested in an item of radius `2` lands at the origin. -/
theorem c7_witness : SqrtDom mone.sqrt ∧
    conductorLayout mone 1 (some 1) 2 = some (1, [(0, 0)]) ∧
    Real.sqrt (((0 : ℚ) : ℝ) ^ 2 + ((0 : ℚ) : ℝ) ^ 2) + ((1 : ℚ) : ℝ) ≤
      ((2 : ℚ) : ℝ) - 3 / 5 := by
  have hd : SqrtDom mone.sqrt := by
    intro v hv
    constructor
    · show (0 : ℚ) ≤ qadd v 1
      rw [qadd_eq]; linarith
    · show v ≤ qadd v 1 * qadd v 1
      rw [qadd_eq]; nlinarith [sq_nonneg v]
  have hc : conductorLayout mone 1 (some 1) 2 = some (1, [(0, 0)]) := by decide
  exact ⟨hd, hc,
    c7_nested_containment mone 1 (some 1) 2 1 [(0, 0)] hd hc (0, 0) (by decide)⟩

/-- Claim C8, counterexample: the greedy engine writes the computed `x`,
`y` coordinates into the caller's item dicts — the item list after a run on
one radius-`3` item differs from the input list, so the engine is not free
of caller-visible mutation. -/
theorem c8_counterexample :
    (place_cables mzero [⟨some 3, none, none, none, none⟩] 10 0 36
        SeedMode.center).store ≠ [⟨some 3, none, none, none, none⟩] := by
  decide

/-- Claim C8, amended: placement mutates the caller's items only through
their `x`, `y` position fields — after the greedy engine, the multi-seed
block and the overlap placer, the item list has the same length and the
same `r`, `n_cond`, `r_cond` fields everywhere. -/
theorem c8_amended (M : MathFns) (cables : List Cable) (R off : ℚ)
    (count : ℕ) (mode : SeedMode) :
    StoreShape cables (place_cables M cables R off count mode).store ∧
    StoreShape cables (multiSeed M cables R).store ∧
    StoreShape cables (place_cables_allow_overlap M cables R).1 :=
  ⟨place_cables_store M cables R off count mode,
   multiSeed_store M cables R,
   place_cables_allow_overlap_store M cables R⟩

/-- Claim C9, counterexample: raising the angle-sample count from 36 to 48
can make the resulting maximum bounding extent strictly worse even with
every item placed in both runs — under the bundle `mx9` with two radius-`3`
items and `R = 10`, the 36-sample run reaches extent `19/2` while the
48-sample run reaches `993/100 > 19/2`. -/
theorem c9_counterexample :
    (place_cables mx9 cs9 10 0 36 SeedMode.center).unplaced = 0 ∧
    (place_cables mx9 cs9 10 0 48 SeedMode.center).unplaced = 0 ∧
    extentQ mx9 (place_cables mx9 cs9 10 0 36 SeedMode.center).placed = mkRat 19 2 ∧
    extentQ mx9 (place_cables mx9 cs9 10 0 48 SeedMode.center).placed = mkRat 993 100 ∧
    ¬ (extentQ mx9 (place_cables mx9 cs9 10 0 48 SeedMode.center).placed ≤
        extentQ mx9 (place_cables mx9 cs9 10 0 36 SeedMode.center).placed) := by
  decide

/-- Claim C9, amended: what does hold for every sample count is the uniform
bound the engine's own feasibility check enforces — with a square root that
under-approximates (`SqrtLB`), direction samples inside the unit disk and
`0 ≤ R`, the maximum bounding extent of any greedy run is at most `R`,
independent of the angle-sample count. -/
theorem c9_amended (M : MathFns) (cables : List Cable) (R off : ℚ)
    (count : ℕ) (mode : SeedMode) (hlb : SqrtLB M.sqrt) (ht : TrigBound M)
    (hR : 0 ≤ R) :
    extentQ M (place_cables M cables R off count mode).placed ≤ R :=
  extentQ_le_of_qdisk _ hR (place_cables_qdisk cables off count mode hlb ht)

/-- Concrete instance of `c9_amended` under the degenerate bundle `mzero`. -/
theorem c9_witness : SqrtLB mzero.sqrt ∧ TrigBound mzero ∧ (0 : ℚ) ≤ 10 ∧
    extentQ mzero (place_cables mzero [⟨some 3, none, none, none, none⟩] 10 0 36
      SeedMode.center).placed ≤ 10 := by
  have hlb : SqrtLB mzero.sqrt := fun v w hw _ => hw
  have ht : TrigBound mzero := by
    intro t
    show (1 : ℚ) * 1 + 0 * 0 ≤ 1
    norm_num
  exact ⟨hlb, ht, by norm_num,
    c9_amended mzero [⟨some 3, none, none, none, none⟩] 10 0 36 SeedMode.center
      hlb ht (by norm_num)⟩

/-- Claim C10: conservation of items — for every greedy run, the length of
the placed list plus the unplaced count equals the number of input items,
whatever radii the items have. -/
theorem c10_conservation (M : MathFns) (cables : List Cable) (R off : ℚ)
    (count : ℕ) (mode : SeedMode) :
    (place_cables M cables R off count mode).placed.length +
      (place_cables M cables R off count mode).unplaced = cables.length := by
  rw [place_cables_eq]
  have h := foldl_processCable_count M R off count mode
    (sortDescIdx (sortKey cables) (List.range cables.length)) ⟨cables, [], 0⟩
  rw [length_sortDescIdx, List.length_range] at h
  dsimp only at h
  simp only [List.length_nil] at h
  omega
